import Mathlib

/-! Input-Validation: the name and phone-number validators of the contact directory.

A shallow embedding of `src/database.cpp`.  A `std::string` is the list of its bytes and a
`std::u32string` the list of its code points, both as natural numbers.  The regular expressions
of the source are translated one by one into the list functions below; each definition quotes
the source line it embeds.
-/

namespace Database

/-- The bytes of a string literal, as the numbers a `std::string` holds. -/
def bytes (s : String) : List Nat := s.toList.map Char.toNat

/-! ## Character classes of the regular expressions -/

/-- Class `[0-9]`. -/
def isDigit (c : Nat) : Bool := 48 ≤ c && c ≤ 57

/-- Class `[A-Za-z]`. -/
def isLetter (c : Nat) : Bool := (65 ≤ c && c ≤ 90) || (97 ≤ c && c ≤ 122)

/-- Class `[A-Za-z0-9\+\(\)\-., ]` of the sanity check (line 127): letters, digits,
`+` 43, `(` 40, `)` 41, `-` 45, `.` 46, `,` 44 and the space 32. -/
def isSanityChar (c : Nat) : Bool :=
  isLetter c || isDigit c || c == 43 || c == 40 || c == 41 || c == 45 || c == 46 || c == 44
    || c == 32

/-- Class `[A-Za-z,]` (line 131). -/
def isLetterOrComma (c : Nat) : Bool := isLetter c || c == 44

/-- Class `[a-wyz]` (line 148): the lower-case letters other than `x` 120. -/
def isOtherLetter (c : Nat) : Bool := (97 ≤ c && c ≤ 119) || c == 121 || c == 122

/-- Class `\s`: the characters for which `isspace` holds in the C locale. -/
def isSpace (c : Nat) : Bool := c == 32 || (9 ≤ c && c ≤ 13)

/-- The characters the regex `.` does not match: line feed and carriage return. -/
def isLineTerminator (c : Nat) : Bool := c == 10 || c == 13

/-- Class `[0-9\+]`, whose complement is squeezed on line 179. -/
def isNumChar (c : Nat) : Bool := isDigit c || c == 43

/-- Characters matched by `\(|\)` (line 174). -/
def isParen (c : Nat) : Bool := c == 40 || c == 41

/-- The function `::tolower` of the C locale. -/
def tolower (c : Nat) : Nat := if 65 ≤ c ∧ c ≤ 90 then c + 32 else c

/-! ## Regular-expression operations -/

/-- The value of `std::smatch::size()` after `regex_search`: zero when nothing matched, otherwise
one entry for the whole match plus one per capture group.  It does not count occurrences. -/
def smatchSize (found : Bool) (groups : Nat) : Nat := if found then groups + 1 else 0

/-- The call `regex_replace(s, regex(pat), rep, format_first_only)` for a pattern `pat` made of
literal characters: the leftmost occurrence of `pat` is replaced by `rep`. -/
def replaceFirst (pat rep : List Nat) : List Nat → List Nat
  | [] => []
  | c :: cs =>
    if pat.isPrefixOf (c :: cs) then rep ++ (c :: cs).drop pat.length
    else c :: replaceFirst pat rep cs

/-- The call `regex_replace(s, regex("ext\\.?"), "x", format_first_only)` (line 145): the
leftmost `ext`, together with a `.` directly after it when there is one, becomes `x`. -/
def replaceFirstExt : List Nat → List Nat
  | [] => []
  | c :: cs =>
    if (bytes "ext.").isPrefixOf (c :: cs) then 120 :: (c :: cs).drop 4
    else if (bytes "ext").isPrefixOf (c :: cs) then 120 :: (c :: cs).drop 3
    else c :: replaceFirstExt cs

/-- The text `matches[0]` after `regex_search(s, matches, regex("x.*"))` (lines 152-153): from the
leftmost `x` up to the next line terminator or the end; empty when there is no `x`. -/
def searchXRest : List Nat → List Nat
  | [] => []
  | c :: cs =>
    if c = 120 then c :: cs.takeWhile (fun d => !isLineTerminator d) else searchXRest cs

/-- The test `regex_match(e, regex("x\\s?[0-9]{1,15}"))` (line 160). -/
def matchExtention : List Nat → Bool
  | 120 :: s :: r =>
    if isSpace s then r.all isDigit && 1 ≤ r.length && r.length ≤ 15
    else (s :: r).all isDigit && (s :: r).length ≤ 15
  | _ => false

/-- The test `regex_search(s, regex("\\([0-9]{3}\\)"))` (line 175). -/
def hasParenGroup : List Nat → Bool
  | [] => false
  | c :: cs =>
    (match c :: cs with
      | 40 :: d1 :: d2 :: d3 :: 41 :: _ => isDigit d1 && isDigit d2 && isDigit d3
      | _ => false) || hasParenGroup cs

/-- The call `regex_replace(s, regex("[^0-9\\+]+"), " ")` (line 179), scanning left to right;
`inRun` tells that the previous character already belonged to the run being replaced. -/
def squeezeFrom (inRun : Bool) : List Nat → List Nat
  | [] => []
  | c :: cs =>
    if isNumChar c then c :: squeezeFrom false cs
    else if inRun then squeezeFrom true cs
    else 32 :: squeezeFrom true cs

/-- The squeeze of line 179 on a whole string. -/
def squeeze (s : List Nat) : List Nat := squeezeFrom false s

/-- The call `regex_replace(s, regex("\\s\\s"), " ")` (line 183): every pair of adjacent white
space characters, found left to right without overlap, becomes one space. -/
def collapsePairs : List Nat → List Nat
  | a :: b :: r =>
    if isSpace a && isSpace b then 32 :: collapsePairs r else a :: collapsePairs (b :: r)
  | r => r

/-- The call `regex_replace(s, regex("\\s"), "")` (lines 162 and 191). -/
def removeSpaces (s : List Nat) : List Nat := s.filter (fun c => !isSpace c)

/-- The test `regex_match(s, regex("\\+[0-9]{7,15}"))` (line 195). -/
def matchInternational : List Nat → Bool
  | 43 :: ds => ds.all isDigit && 7 ≤ ds.length && ds.length ≤ 15
  | _ => false

/-- The alternatives of `countryCodeRegex` (line 198), in the order of the source. -/
def countryCodes : List String := [
    "001", "297", "93", "244", "1264", "358", "355", "376", "971", "54", "374", "1684", "1268",
    "61", "43", "994", "257", "32", "229", "226", "880", "359", "973", "1242", "387", "590",
    "375", "501", "1441", "591", "55", "1246", "673", "975", "267", "236", "1", "61", "41", "56",
    "86", "225", "237", "243", "242", "682", "57", "269", "238", "506", "53", "5999", "61",
    "1345", "357", "420", "49", "253", "1767", "45", "1809", "1829", "1849", "213", "593", "20",
    "291", "212", "34", "372", "251", "358", "679", "500", "33", "298", "691", "241", "44", "995",
    "44", "233", "350", "224", "590", "220", "245", "240", "30", "1473", "299", "502", "594",
    "1671", "592", "852", "504", "385", "509", "36", "62", "44", "91", "246", "353", "98", "964",
    "354", "972", "39", "1876", "44", "962", "81", "76", "77", "254", "996", "855", "686", "1869",
    "82", "383", "965", "856", "961", "231", "218", "1758", "423", "94", "266", "370", "352",
    "371", "853", "590", "212", "377", "373", "261", "960", "52", "692", "389", "223", "356",
    "95", "382", "976", "1670", "258", "222", "1664", "596", "230", "265", "60", "262", "264",
    "687", "227", "672", "234", "505", "683", "31", "47", "977", "674", "64", "968", "92", "507",
    "64", "51", "63", "680", "675", "48", "1787", "1939", "850", "351", "595", "970", "689",
    "974", "262", "40", "7", "250", "966", "249", "221", "65", "500", "4779", "677", "232", "503",
    "378", "252", "508", "381", "211", "239", "597", "421", "386", "46", "268", "1721", "248",
    "963", "1649", "235", "228", "66", "992", "690", "993", "670", "676", "1868", "216", "90",
    "688", "886", "255", "256", "380", "598", "1", "998", "3906698", "379", "1784", "58", "1284",
    "1340", "84", "678", "681", "685", "967", "27", "260", "263"]

/-- The alternatives of `areaCodeRegex` (line 224), in the order of the source. -/
def areaCodes : List String := [
    "201", "202", "203", "204", "205", "206", "207", "208", "209", "210", "211", "212", "213",
    "214", "215", "216", "217", "218", "219", "220", "223", "224", "225", "226", "227", "228",
    "229", "231", "234", "236", "239", "240", "242", "246", "248", "249", "250", "251", "252",
    "253", "254", "256", "260", "262", "263", "264", "267", "268", "269", "270", "272", "274",
    "276", "278", "279", "281", "283", "284", "289", "301", "302", "303", "304", "305", "306",
    "307", "308", "309", "310", "311", "312", "313", "314", "315", "316", "317", "318", "319",
    "320", "321", "323", "325", "326", "327", "330", "331", "332", "334", "336", "337", "339",
    "340", "341", "343", "345", "346", "347", "351", "352", "354", "360", "361", "363", "364",
    "365", "367", "368", "369", "380", "382", "385", "386", "387", "401", "402", "403", "404",
    "405", "406", "407", "408", "409", "410", "411", "412", "413", "414", "415", "416", "417",
    "418", "419", "423", "424", "425", "428", "430", "431", "432", "434", "435", "437", "438",
    "440", "441", "442", "443", "445", "447", "448", "450", "456", "458", "463", "464", "468",
    "469", "470", "472", "473", "474", "475", "478", "479", "480", "484", "500", "501", "502",
    "503", "504", "505", "506", "507", "508", "509", "510", "511", "512", "513", "514", "515",
    "516", "517", "518", "519", "520", "521", "522", "523", "524", "525", "526", "530", "531",
    "532", "533", "534", "535", "538", "539", "540", "541", "544", "545", "546", "547", "548",
    "549", "550", "551", "555", "556", "557", "558", "559", "561", "562", "563", "564", "566",
    "567", "569", "570", "571", "572", "573", "574", "575", "577", "578", "579", "580", "581",
    "582", "584", "585", "586", "587", "588", "589", "600", "601", "602", "603", "604", "605",
    "606", "607", "608", "609", "610", "611", "612", "613", "614", "615", "616", "617", "618",
    "619", "620", "622", "623", "626", "627", "628", "629", "630", "631", "633", "636", "639",
    "640", "641", "644", "646", "647", "649", "650", "651", "655", "656", "657", "658", "659",
    "660", "661", "662", "664", "667", "669", "670", "671", "672", "677", "678", "679", "680",
    "681", "682", "683", "684", "688", "689", "700", "701", "702", "703", "704", "705", "706",
    "707", "708", "709", "710", "711", "712", "713", "714", "715", "716", "717", "718", "719",
    "720", "721", "724", "725", "726", "727", "730", "731", "732", "734", "737", "740", "742",
    "743", "747", "753", "754", "757", "758", "760", "762", "763", "764", "765", "767", "769",
    "770", "771", "772", "773", "774", "775", "778", "779", "780", "781", "782", "784", "785",
    "786", "787", "800", "801", "802", "803", "804", "805", "806", "807", "808", "809", "810",
    "811", "812", "813", "814", "815", "816", "817", "818", "819", "820", "822", "825", "826",
    "828", "829", "830", "831", "832", "833", "835", "838", "839", "840", "843", "844", "845",
    "847", "848", "849", "850", "854", "855", "856", "857", "858", "859", "860", "861", "862",
    "863", "864", "865", "866", "867", "868", "869", "870", "872", "873", "876", "877", "878",
    "879", "888", "889", "900", "901", "902", "903", "904", "905", "906", "907", "908", "909",
    "910", "911", "912", "913", "914", "915", "916", "917", "918", "919", "920", "925", "927",
    "928", "929", "930", "931", "932", "934", "935", "936", "937", "938", "939", "940", "941",
    "943", "945", "947", "948", "949", "950", "951", "952", "954", "956", "959", "970", "971",
    "972", "973", "975", "978", "979", "980", "983", "984", "985", "986", "988", "989"]

/-- The test `regex_search(s, countryCodeRegex)` (line 199): `+` and then one of the codes. -/
def hasCountryCode (s : List Nat) : Bool :=
  countryCodes.any (fun code => (43 :: bytes code).isPrefixOf s)

/-- The test `regex_search(s, areaCodeRegex)` (line 225): the string starts with a listed code. -/
def hasAreaCode (s : List Nat) : Bool :=
  areaCodes.any (fun code => (bytes code).isPrefixOf s)

/-- The test `regex_match(s, regex("[2-9][0-9]{2} [0-9]{3} [0-9]{4} ?"))` (line 220). -/
def matchNANP (s : List Nat) : Bool :=
  match s with
  | a1 :: a2 :: a3 :: b1 :: e1 :: e2 :: e3 :: b2 :: s1 :: s2 :: s3 :: s4 :: rest =>
    (50 ≤ a1 && a1 ≤ 57) && isDigit a2 && isDigit a3 && b1 == 32
      && isDigit e1 && isDigit e2 && isDigit e3 && b2 == 32
      && isDigit s1 && isDigit s2 && isDigit s3 && isDigit s4
      && (rest == [] || rest == [32])
  | _ => false

/-! ## The phone-number validator -/

/-- Ways in which `validatePhoneNumber` leaves the bounds of its string. -/
inductive Fault where
  /-- The call `phoneNumber.back()` on an empty string (line 166): undefined behaviour. -/
  | backOnEmpty
  /-- The call `phoneNumber.insert(6, " ")` with fewer than six characters (line 210):
  `std::out_of_range` is thrown. -/
  | insertOutOfRange
  deriving DecidableEq, Repr

/-- What a call of `validatePhoneNumber` ends with. -/
inductive Outcome where
  /-- The function returned `false`. -/
  | rejected
  /-- The function returned `true` and left this text in its reference argument. -/
  | accepted (phoneNumber : List Nat)
  /-- The function left the bounds of the string. -/
  | fault (f : Fault)
  deriving DecidableEq, Repr

/-- Lines 131-163: when the text holds a letter or a comma, the extension is split off.  The
result is the remaining number and the extension, or `none` for `return false`. -/
def extractExtention (phoneNumber : List Nat) : Option (List Nat × List Nat) :=
  if phoneNumber.any isLetterOrComma then
    let p1 := phoneNumber.map tolower
    if smatchSize (p1.contains 120) 0 != 1 then none else
    let p2 := replaceFirst (bytes "extention") (bytes "ext.") p1
    let p3 := replaceFirstExt p2
    if p3.any isOtherLetter then none else
    let extention := searchXRest p3
    let p4 := p3.take (p3.length - extention.length)
    if !matchExtention extention then none else
    some (p4, removeSpaces extention)
  else some (phoneNumber, [])

/-- The call `s.insert(pos, " ")` for a position within the string: one space is put before the
character at index `pos`. -/
def insertSpace (pos : Nat) (s : List Nat) : List Nat := s.take pos ++ 32 :: s.drop pos

/-- Lines 214-229: the North American branch. -/
def parseNANP (phoneNumber extention : List Nat) : Outcome :=
  let p := if phoneNumber.take 3 = bytes "+1 " then phoneNumber.drop 3 else phoneNumber
  if !matchNANP p then .rejected else
  if !hasAreaCode p then .rejected else
  .accepted (p ++ extention)

/-- Lines 190-212 followed by the North American branch: the body of the international branch.
A number with the prefix `+001` loses it, gets its two spaces back and falls through. -/
def parseInternational (phoneNumber extention : List Nat) : Outcome :=
  let q := removeSpaces phoneNumber
  if !matchInternational q then .rejected else
  if !hasCountryCode q then .rejected else
  if !(bytes "+001").isPrefixOf q then .accepted (q ++ extention) else
  let q1 := q.drop 4
  if 6 > q1.length then .fault .insertOutOfRange else
  parseNANP (insertSpace 3 (insertSpace 6 q1)) extention

/-- Lines 188-229: the choice between the two branches.  Reading `phoneNumber[0]` of an empty
string gives the terminating zero. -/
def parseBranches (phoneNumber extention : List Nat) : Outcome :=
  if phoneNumber.headD 0 = 43 && phoneNumber.take 3 != bytes "+1 " then
    parseInternational phoneNumber extention
  else parseNANP phoneNumber extention

/-- Lines 178-186: squeeze, collapse of double spaces, removal of one leading space. -/
def squeezeNumber (phoneNumber : List Nat) : List Nat :=
  let p := collapsePairs (squeeze phoneNumber)
  if p.headD 0 = 32 then p.drop 1 else p

/-- Lines 165-166: `if(phoneNumber.back() == ' ') phoneNumber.pop_back();`, with `none` when
`back()` is called on an empty string. -/
def popTrailingSpace (phoneNumber : List Nat) : Option (List Nat) :=
  match phoneNumber.getLast? with
  | none => none
  | some last => some (if last = 32 then phoneNumber.dropLast else phoneNumber)

/-- Lines 165-229: clean-up, squeeze and the two branches. -/
def parseNumber (phoneNumber extention : List Nat) : Outcome :=
  match popTrailingSpace phoneNumber with
  | none => .fault .backOnEmpty
  | some p =>
    if smatchSize (p.contains 46) 0 > 1 then .rejected else
    if smatchSize (p.any isParen) 0 != 0 && !hasParenGroup p then .rejected else
    parseBranches (squeezeNumber p) extention

/-- The function `Database::validatePhoneNumber` (lines 121-230). -/
def validatePhoneNumber (phoneNumber : List Nat) : Outcome :=
  if phoneNumber.any (fun c => !isSanityChar c) then .rejected else
  match extractExtention phoneNumber with
  | none => .rejected
  | some (number, extention) => parseNumber number extention

/-! ## The name normalizer and the name validator -/

/-- The vector `spaceChars` of line 74.  It is sorted, so the call `std::binary_search` of
line 76 is the membership test. -/
def spaceChars : List Nat :=
  [9, 160, 5760, 6158, 8192, 8193, 8194, 8195, 8196, 8197, 8198, 8199, 8200, 8201, 8202, 8203,
    8239, 8287, 12288, 65279]

/-- Lines 75-80: every code point of `spaceChars` becomes the space 32. -/
def replaceSpaceChars (utf32 : List Nat) : List Nat :=
  utf32.map (fun c => if spaceChars.contains c then 32 else c)

/-- The loop of `std::unique` with the predicate `lhs == rhs && lhs == 32` of line 83: `kept` is
the last element kept so far, and an element equal to it is dropped when both are spaces. -/
def uniqueFrom (kept : Nat) : List Nat → List Nat
  | [] => []
  | c :: cs => if kept = c ∧ kept = 32 then uniqueFrom kept cs else c :: uniqueFrom c cs

/-- Lines 83-84: `std::unique` followed by `erase`. -/
def unique : List Nat → List Nat
  | [] => []
  | c :: cs => c :: uniqueFrom c cs

/-- Line 87: `if (utf32[0] == 32) utf32.erase(utf32.begin())`; index 0 of an empty string reads
the terminating zero. -/
def eraseLeadingSpace (utf32 : List Nat) : List Nat :=
  if utf32.headD 0 = 32 then utf32.drop 1 else utf32

/-- Line 91: `if (utf32.size() && utf32[utf32.size() - 1] == 32) utf32.erase(utf32.end() - 1)`. -/
def eraseTrailingSpace (utf32 : List Nat) : List Nat :=
  if utf32.length ≠ 0 ∧ utf32.getLast? = some 32 then utf32.dropLast else utf32

/-- Lines 73-95: the steps of `normalizeToUTF32` after the normalization to form C. -/
def foldSpaces (utf32 : List Nat) : List Nat :=
  eraseTrailingSpace (eraseLeadingSpace (unique (replaceSpaceChars utf32)))

/-- The function `Database::normalizeToUTF32` (lines 62-96).  The conversion from UTF-8 of the
standard library (`from_bytes`, which throws on bytes it cannot decode: `none`) and the
normalization to form C of the library unilib (`nfc`) are parameters. -/
def normalizeToUTF32 (from_bytes : List Nat → Option (List Nat)) (nfc : List Nat → List Nat)
    (str : List Nat) : Option (List Nat) :=
  match from_bytes str with
  | none => none
  | some utf32 => some (foldSpaces (nfc utf32))

/-- The loop of lines 110-116 of `validateName`. -/
def validateChars : List Nat → Bool
  | [] => true
  | c :: cs =>
    if c < 32 then false
    else if c > 126 ∧ c < 161 then false
    else if c > 8286 ∧ c < 8298 then false
    else if c > 8432 ∧ c < 8448 then false
    else if c > 917503 ∧ c < 921601 then false
    else validateChars cs

/-- The function `Database::validateName` (lines 98-119). -/
def validateName (name : List Nat) : Bool :=
  if name.isEmpty then false else validateChars name

/-- The banned ranges as the spec lists them, all bounds exclusive. -/
def isBannedBySpec (c : Nat) : Bool :=
  c < 0x20 || (0x7F < c && c < 0xA0) || (0x205E < c && c < 0x2082)
    || (0x20F0 < c && c < 0x2100) || (0xE0000 < c && c < 0xE1000)

/-- Two adjacent spaces somewhere in the sequence. -/
def hasSpaceRun : List Nat → Bool
  | a :: b :: r => (a == 32 && b == 32) || hasSpaceRun (b :: r)
  | _ => false

/-- The read `s[pos]` of `std::basic_string::operator[]`: the character at `pos < size()`, the
terminating zero at `pos == size()`, and nothing defined beyond (`none`). -/
def charAt (s : List Nat) (pos : Nat) : Option Nat :=
  if pos < s.length then s.get? pos else if pos = s.length then some 0 else none

/-- Lines 86-91 of `normalizeToUTF32` with every index checked: `none` stands for a read out of
bounds.  The read of line 91 happens only when `utf32.size()` is not zero. -/
def stripChecked (utf32 : List Nat) : Option (List Nat) :=
  match charAt utf32 0 with
  | none => none
  | some first =>
    let s := if first = 32 then utf32.drop 1 else utf32
    if s.length ≠ 0 then
      match charAt s (s.length - 1) with
      | none => none
      | some last => some (if last = 32 then s.dropLast else s)
    else some s

/-! ## The directory -/

/-- The struct `User` of `user.hpp`; its defaulted comparison compares both fields. -/
structure User where
  /-- The normalized name. -/
  name : List Nat
  /-- The canonical phone number. -/
  phoneNumber : List Nat
  deriving DecidableEq, Repr

/-- The insertion step of `populateFromFile` (lines 16-23) and of `add` (lines 264-271): when
`std::find` meets an equal user nothing changes, otherwise `emplace_back` appends the user. -/
def insertIfAbsent (Users : List User) (user : User) : List User :=
  if user ∈ Users then Users else Users ++ [user]

/-- The loop of lines 294-299 (and 331-336) of `del`: the positions, from `pos` on, of the users
that `std::find_if` meets with the predicate, in the order of the list. -/
def findMatchesFrom (pred : User → Bool) (pos : Nat) : List User → List Nat
  | [] => []
  | user :: rest =>
    if pred user then pos :: findMatchesFrom pred (pos + 1) rest
    else findMatchesFrom pred (pos + 1) rest

/-- The vector `matches` of `del` for a whole directory. -/
def findMatches (pred : User → Bool) (Users : List User) : List Nat :=
  findMatchesFrom pred 0 Users

/-- The conversion of line 313 (and 350), `int selection = std::strtol(...)`: the `long` that
`std::strtol` returns is narrowed to the 32-bit `int`, that is, taken modulo `2^32` into the
range from `-2^31` to `2^31 - 1`. -/
def narrowToInt (value : Int) : Int := (value + 2147483648) % 4294967296 - 2147483648

/-- Lines 301-319 (and 338-356) of `del`: nothing is erased without a match, the only match is
erased at once, and among several matches the one numbered `selection` is erased when
`selection > matches.size() || selection < 1` is false.  Here `typed` is the `long` that
`std::strtol` returns for the line typed, `selection` is that value narrowed to `int`, and in
the test the `int` is converted to the unsigned 64-bit type of `size()`. -/
def eraseSelected (Users : List User) (found : List Nat) (typed : Int) : List User :=
  let selection := narrowToInt typed
  if found.isEmpty then Users
  else if found.length = 1 then Users.eraseIdx (found.getD 0 0)
  else if (selection % 18446744073709551616).toNat > found.length ∨ selection < 1 then Users
  else Users.eraseIdx (found.getD (selection - 1).toNat 0)

/-- The two branches of `del` (lines 294-319 and 331-356), which differ in the field compared
with the query only. -/
def delBy (field : User → List Nat) (Users : List User) (query : List Nat) (typed : Int) :
    List User :=
  eraseSelected Users (findMatches (fun user => field user == query) Users) typed

/-- The branch of `del` that deletes by name (lines 294-319). -/
def delByName (Users : List User) (name : List Nat) (typed : Int) : List User :=
  delBy User.name Users name typed

/-- The branch of `del` that deletes by phone number (lines 331-356). -/
def delByPhoneNumber (Users : List User) (phoneNumber : List Nat) (typed : Int) :
    List User :=
  delBy User.phoneNumber Users phoneNumber typed

/-- One change of the directory: an insertion (from `populateFromFile` or `add`) or a deletion
by name or by phone number. -/
inductive Command where
  /-- Insertion of a validated user. -/
  | insert (user : User)
  /-- Deletion by name, with the number typed when several users match. -/
  | delName (name : List Nat) (typed : Int)
  /-- Deletion by phone number, with the number typed when several users match. -/
  | delPhone (phoneNumber : List Nat) (typed : Int)

/-- The directory after one command. -/
def applyCommand (Users : List User) : Command → List User
  | .insert user => insertIfAbsent Users user
  | .delName name typed => delByName Users name typed
  | .delPhone phoneNumber typed => delByPhoneNumber Users phoneNumber typed

/-- The directory after a sequence of commands, starting from the empty directory. -/
def runCommands (commands : List Command) : List User :=
  commands.foldl applyCommand []

/-- A directory of three users, two of them named Ann, for the examples. -/
def sampleUsers : List User :=
  [⟨bytes "Ann", bytes "972 964 4333"⟩, ⟨bytes "Bob", bytes "214 555 0100"⟩,
    ⟨bytes "Ann", bytes "+442079460958"⟩]

/-! ## The canonical shapes of the data model -/

/-- Canonical extension: `x` directly followed by 1 to 15 digits. -/
def isExtention : List Nat → Bool
  | 120 :: ds => ds.all isDigit && 1 ≤ ds.length && ds.length ≤ 15
  | _ => false

/-- The form `NNN NNN NNNN` of the data model, optionally followed by an extension. -/
def isNANPForm : List Nat → Bool
  | a1 :: a2 :: a3 :: b1 :: e1 :: e2 :: e3 :: b2 :: s1 :: s2 :: s3 :: s4 :: rest =>
    isDigit a1 && isDigit a2 && isDigit a3 && b1 == 32
      && isDigit e1 && isDigit e2 && isDigit e3 && b2 == 32
      && isDigit s1 && isDigit s2 && isDigit s3 && isDigit s4
      && (rest == [] || isExtention rest)
  | _ => false

/-- The international form of the data model: `+`, 7 to 15 digits, optionally an extension. -/
def isInternationalForm : List Nat → Bool
  | 43 :: r =>
    7 ≤ (r.takeWhile isDigit).length && (r.takeWhile isDigit).length ≤ 15
      && (r.dropWhile isDigit == [] || isExtention (r.dropWhile isDigit))
  | _ => false

/-- The form `NNN NNN NNNN` in which one space may follow the four subscriber digits, before the
optional extension. -/
def isNANPFormSpaced : List Nat → Bool
  | a1 :: a2 :: a3 :: b1 :: e1 :: e2 :: e3 :: b2 :: s1 :: s2 :: s3 :: s4 :: rest =>
    isDigit a1 && isDigit a2 && isDigit a3 && b1 == 32
      && isDigit e1 && isDigit e2 && isDigit e3 && b2 == 32
      && isDigit s1 && isDigit s2 && isDigit s3 && isDigit s4
      && (rest == [] || isExtention rest || rest == [32]
          || (rest.headD 0 == 32 && isExtention (rest.drop 1)))
  | _ => false

/-- Groups of digits written one after another with one space between neighbours. -/
def joinGroups : List (List Nat) → List Nat
  | [] => []
  | [g] => g
  | g :: h :: t => g ++ 32 :: joinGroups (h :: t)

/-! ## Auxiliary predicates of the proofs -/

/-- Digits, the space and `+`: the characters of a canonical number. -/
def isPlain (c : Nat) : Bool := isDigit c || c == 32 || c == 43

/-- Digits, the hyphen and the space: the characters of a number written with separators. -/
def isDialChar (c : Nat) : Bool := isDigit c || c == 45 || c == 32

/-! # Theorems -/

set_option maxRecDepth 100000

/-! ## Character facts -/

theorem not_isSpace_of_isDigit {c : Nat} (h : isDigit c = true) : isSpace c = false := by
  simp [isDigit] at h
  simp [isSpace]
  omega

theorem removeSpaces_cons (c : Nat) (s : List Nat) :
    removeSpaces (c :: s) = if isSpace c then removeSpaces s else c :: removeSpaces s := by
  unfold removeSpaces
  by_cases h : isSpace c = true <;> simp [List.filter_cons, h]

theorem removeSpaces_digits {ds : List Nat} (h : ds.all isDigit = true) :
    removeSpaces ds = ds := by
  unfold removeSpaces
  rw [List.filter_eq_self]
  intro a ha
  simp [not_isSpace_of_isDigit (List.all_eq_true.mp h a ha)]

/-! ## What an accepted result looks like -/

theorem matchExtention_removeSpaces {e : List Nat} (h : matchExtention e = true) :
    isExtention (removeSpaces e) = true := by
  unfold matchExtention at h
  split at h
  · rename_i s r
    have hx : isSpace 120 = false := by decide
    rw [removeSpaces_cons, hx, removeSpaces_cons]
    split at h
    · rename_i hs
      simp only [Bool.and_eq_true] at h
      simp only [hs, if_true, removeSpaces_digits h.1.1, Bool.false_eq_true, if_false]
      simpa [isExtention] using h
    · rename_i hs
      simp only [Bool.and_eq_true] at h
      have hd : (s :: r).all isDigit = true := h.1
      have hr := removeSpaces_digits hd
      rw [removeSpaces_cons] at hr
      simp only [hs, if_false, Bool.false_eq_true] at hr ⊢
      rw [List.cons_inj_right] at hr
      rw [hr]
      simp only [isExtention, hd, Bool.true_and, Bool.and_eq_true, decide_eq_true_eq]
      simp at h
      simp
      omega
  · simp at h

theorem extractExtention_ext {s p e : List Nat} (h : extractExtention s = some (p, e)) :
    e = [] ∨ isExtention e = true := by
  unfold extractExtention at h
  simp only at h
  split_ifs at h with h1 h2 h3 h4
  · simp only [Option.some.injEq, Prod.mk.injEq] at h
    right
    rw [← h.2]
    apply matchExtention_removeSpaces
    simpa using h4
  · simp only [Option.some.injEq, Prod.mk.injEq] at h
    left; exact h.2.symm

theorem parseNANP_accepted {p e c : List Nat} (h : parseNANP p e = .accepted c) :
    ∃ num, c = num ++ e ∧ matchNANP num = true ∧ hasAreaCode num = true := by
  unfold parseNANP at h
  simp only at h
  split_ifs at h with h0 h1 h2 h1 h2 <;>
    (simp only [Outcome.accepted.injEq] at h
     exact ⟨_, h.symm, by simpa using h1, by simpa using h2⟩)

theorem parseInternational_accepted {p e c : List Nat}
    (h : parseInternational p e = .accepted c) :
    ∃ num, c = num ++ e ∧
      ((matchNANP num = true ∧ hasAreaCode num = true) ∨
       (matchInternational num = true ∧ hasCountryCode num = true
          ∧ (bytes "+001").isPrefixOf num = false)) := by
  unfold parseInternational at h
  simp only at h
  split_ifs at h with h1 h2 h3 h4
  · simp only [Outcome.accepted.injEq] at h
    exact ⟨_, h.symm, Or.inr ⟨by simpa using h1, by simpa using h2, by simpa using h3⟩⟩
  · obtain ⟨num, hc, h1, h2⟩ := parseNANP_accepted h
    exact ⟨num, hc, Or.inl ⟨h1, h2⟩⟩

theorem parseBranches_accepted {p e c : List Nat} (h : parseBranches p e = .accepted c) :
    ∃ num, c = num ++ e ∧
      ((matchNANP num = true ∧ hasAreaCode num = true) ∨
       (matchInternational num = true ∧ hasCountryCode num = true
          ∧ (bytes "+001").isPrefixOf num = false)) := by
  unfold parseBranches at h
  split_ifs at h
  · exact parseInternational_accepted h
  · obtain ⟨num, hc, h1, h2⟩ := parseNANP_accepted h
    exact ⟨num, hc, Or.inl ⟨h1, h2⟩⟩

theorem parseNumber_accepted {p e c : List Nat} (h : parseNumber p e = .accepted c) :
    ∃ num, c = num ++ e ∧
      ((matchNANP num = true ∧ hasAreaCode num = true) ∨
       (matchInternational num = true ∧ hasCountryCode num = true
          ∧ (bytes "+001").isPrefixOf num = false)) := by
  unfold parseNumber at h
  split at h
  · simp at h
  · split_ifs at h
    exact parseBranches_accepted h

theorem validatePhoneNumber_accepted {s c : List Nat}
    (h : validatePhoneNumber s = .accepted c) :
    ∃ num e, c = num ++ e ∧ (e = [] ∨ isExtention e = true) ∧
      ((matchNANP num = true ∧ hasAreaCode num = true) ∨
       (matchInternational num = true ∧ hasCountryCode num = true
          ∧ (bytes "+001").isPrefixOf num = false)) := by
  unfold validatePhoneNumber at h
  split_ifs at h
  split at h
  · simp at h
  · rename_i number extention hx
    obtain ⟨num, hc, hs⟩ := parseNumber_accepted h
    exact ⟨num, extention, hc, extractExtention_ext hx, hs⟩

theorem matchNANP_cases {num : List Nat} (h : matchNANP num = true) :
    ∃ a1 a2 a3 e1 e2 e3 s1 s2 s3 s4 rest,
      num = a1 :: a2 :: a3 :: 32 :: e1 :: e2 :: e3 :: 32 :: s1 :: s2 :: s3 :: s4 :: rest
      ∧ (50 ≤ a1 ∧ a1 ≤ 57) ∧ isDigit a2 = true ∧ isDigit a3 = true
      ∧ isDigit e1 = true ∧ isDigit e2 = true ∧ isDigit e3 = true
      ∧ isDigit s1 = true ∧ isDigit s2 = true ∧ isDigit s3 = true ∧ isDigit s4 = true
      ∧ (rest = [] ∨ rest = [32]) := by
  unfold matchNANP at h
  split at h
  · rename_i a1 a2 a3 b1 e1 e2 e3 b2 s1 s2 s3 s4 rest
    simp only [Bool.and_eq_true, Bool.or_eq_true, decide_eq_true_eq, beq_iff_eq, and_assoc] at h
    obtain ⟨ha1, ha1', ha2, ha3, hb1, he1, he2, he3, hb2, hs1, hs2, hs3, hs4, hrest⟩ := h
    subst hb1 hb2
    exact ⟨a1, a2, a3, e1, e2, e3, s1, s2, s3, s4, rest, rfl, ⟨ha1, ha1'⟩, ha2, ha3, he1, he2,
      he3, hs1, hs2, hs3, hs4, hrest⟩
  · simp at h

theorem isDigit_of_area {a : Nat} (h : 50 ≤ a ∧ a ≤ 57) : isDigit a = true := by
  simp [isDigit]; omega

theorem isExtention_cases {e : List Nat} (h : isExtention e = true) :
    ∃ ds, e = 120 :: ds ∧ ds.all isDigit = true ∧ 1 ≤ ds.length ∧ ds.length ≤ 15 := by
  unfold isExtention at h
  split at h
  · rename_i ds
    simp only [Bool.and_eq_true, decide_eq_true_eq] at h
    exact ⟨ds, rfl, h.1.1, h.1.2, h.2⟩
  · simp at h

theorem takeWhile_digits_append {ds e : List Nat} (hd : ds.all isDigit = true)
    (he : e = [] ∨ isExtention e = true) :
    (ds ++ e).takeWhile isDigit = ds ∧ (ds ++ e).dropWhile isDigit = e := by
  induction ds with
  | nil =>
    rcases he with rfl | he
    · simp
    · obtain ⟨r, rfl, -⟩ := isExtention_cases he
      have : isDigit 120 = false := by decide
      simp [List.takeWhile, List.dropWhile, this]
  | cons d ds ih =>
    simp only [List.all_cons, Bool.and_eq_true] at hd
    have := ih hd.2
    simp [List.takeWhile, List.dropWhile, hd.1, this.1, this.2]

theorem matchInternational_cases {num : List Nat} (h : matchInternational num = true) :
    ∃ ds, num = 43 :: ds ∧ ds.all isDigit = true ∧ 7 ≤ ds.length ∧ ds.length ≤ 15 := by
  unfold matchInternational at h
  split at h
  · rename_i ds
    simp only [Bool.and_eq_true, decide_eq_true_eq] at h
    exact ⟨ds, rfl, h.1.1, h.1.2, h.2⟩
  · simp at h

/-- The shape of every accepted result, as the code produces it: the North American shape, in
which one space may stand between the subscriber digits and the extension (or the end), or the
international shape. -/
theorem validatePhoneNumber_accepted_shape (s c : List Nat)
    (h : validatePhoneNumber s = .accepted c) :
    isNANPFormSpaced c = true ∨ isInternationalForm c = true := by
  obtain ⟨num, e, rfl, he, hs⟩ := validatePhoneNumber_accepted h
  rcases hs with ⟨hm, -⟩ | ⟨hm, -, -⟩
  · left
    obtain ⟨a1, a2, a3, e1, e2, e3, s1, s2, s3, s4, rest, rfl, ha1, ha2, ha3, he1, he2, he3,
      hs1, hs2, hs3, hs4, hrest⟩ := matchNANP_cases hm
    have ha1' := isDigit_of_area ha1
    rcases hrest with rfl | rfl <;> rcases he with rfl | he <;>
      simp [isNANPFormSpaced, ha1', ha2, ha3, he1, he2, he3, hs1, hs2, hs3, hs4, *]
  · right
    obtain ⟨ds, rfl, hd, h7, h15⟩ := matchInternational_cases hm
    obtain ⟨h1, h2⟩ := takeWhile_digits_append hd he
    simp only [isInternationalForm, List.cons_append, h1, h2, Bool.and_eq_true, decide_eq_true_eq,
      Bool.or_eq_true, beq_iff_eq]
    exact ⟨⟨h7, h15⟩, he⟩

/-- Example of `validatePhoneNumber_accepted_shape`, at the input `972 964 4333- x12`. -/
theorem validatePhoneNumber_accepted_shape_witness :
    isNANPFormSpaced (bytes "972 964 4333 x12") = true
      ∨ isInternationalForm (bytes "972 964 4333 x12") = true :=
  validatePhoneNumber_accepted_shape (bytes "972 964 4333- x12") (bytes "972 964 4333 x12")
    (by decide)

/-- Claim C1 at its failing input: `972 964 4333-` is accepted and its result `972 964 4333 `
ends in a space, so it is in neither canonical shape.  The strip of line 166 runs before the
squeeze of line 179 makes that space; the strip of the leading space (line 186) runs after the
squeeze, and `-972 964 4333` gives `972 964 4333`. -/
theorem validatePhoneNumber_trailing_space :
    validatePhoneNumber (bytes "972 964 4333-") = .accepted (bytes "972 964 4333 ")
      ∧ isNANPForm (bytes "972 964 4333 ") = false
      ∧ isInternationalForm (bytes "972 964 4333 ") = false
      ∧ validatePhoneNumber (bytes "-972 964 4333") = .accepted (bytes "972 964 4333") := by
  decide

/-! ## Strings made of digits, spaces and `+` pass the extension stage unchanged -/

theorem isPlain_of_isDigit {c : Nat} (h : isDigit c = true) : isPlain c = true := by
  simp [isPlain, h]

theorem isPlain_facts {c : Nat} (h : isPlain c = true) :
    isSanityChar c = true ∧ isLetterOrComma c = false ∧ c ≠ 120 ∧ c ≠ 101 ∧ tolower c = c
      ∧ isOtherLetter c = false ∧ c ≠ 46 ∧ isParen c = false := by
  simp only [isPlain, isDigit, Bool.or_eq_true, Bool.and_eq_true, decide_eq_true_eq,
    beq_iff_eq] at h
  simp only [isSanityChar, isLetter, isDigit, isLetterOrComma, tolower, isOtherLetter, isParen,
    Bool.or_eq_true, Bool.and_eq_true, decide_eq_true_eq, beq_iff_eq, Bool.or_eq_false_iff,
    Bool.and_eq_false_iff, decide_eq_false_iff_not, beq_eq_false_iff_ne, ne_eq]
  refine ⟨?_, ?_, ?_, ?_, ?_, ?_, ?_, ?_⟩ <;> first | omega | (split_ifs <;> omega)

theorem isDigit_facts {c : Nat} (h : isDigit c = true) :
    isNumChar c = true ∧ isSpace c = false ∧ isLineTerminator c = false ∧ c ≠ 32 ∧ c ≠ 43 := by
  simp only [isDigit, Bool.and_eq_true, decide_eq_true_eq] at h
  simp only [isNumChar, isDigit, isSpace, isLineTerminator, Bool.or_eq_true, Bool.and_eq_true,
    decide_eq_true_eq, beq_iff_eq, Bool.or_eq_false_iff, Bool.and_eq_false_iff,
    decide_eq_false_iff_not, beq_eq_false_iff_ne, ne_eq]
  refine ⟨?_, ?_, ?_, ?_, ?_⟩ <;> omega

theorem replaceFirst_of_absent (p : Nat) (ps rep s : List Nat) (h : ∀ c ∈ s, c ≠ p) :
    replaceFirst (p :: ps) rep s = s := by
  induction s with
  | nil => rfl
  | cons c cs ih =>
    have hc : (p == c) = false := by
      simpa using fun hpc => h c (List.mem_cons_self c cs) hpc.symm
    have : (p :: ps).isPrefixOf (c :: cs) = false := by simp [List.isPrefixOf, hc]
    simp only [replaceFirst, this, Bool.false_eq_true, if_false]
    rw [ih (fun d hd => h d (List.mem_cons_of_mem c hd))]

theorem replaceFirstExt_of_absent (s : List Nat) (h : ∀ c ∈ s, c ≠ 101) :
    replaceFirstExt s = s := by
  induction s with
  | nil => rfl
  | cons c cs ih =>
    have hc : ¬ (101 = c) := fun hpc => h c (List.mem_cons_self c cs) hpc.symm
    have h4 : (bytes "ext.").isPrefixOf (c :: cs) = false := by
      have : bytes "ext." = [101, 120, 116, 46] := by decide
      simp [this, List.isPrefixOf, hc]
    have h3 : (bytes "ext").isPrefixOf (c :: cs) = false := by
      have : bytes "ext" = [101, 120, 116] := by decide
      simp [this, List.isPrefixOf, hc]
    simp only [replaceFirstExt, h4, h3, Bool.false_eq_true, if_false]
    rw [ih (fun d hd => h d (List.mem_cons_of_mem c hd))]

theorem searchXRest_append (num ds : List Nat) (hn : ∀ c ∈ num, c ≠ 120)
    (hd : ∀ d ∈ ds, isLineTerminator d = false) :
    searchXRest (num ++ 120 :: ds) = 120 :: ds := by
  induction num with
  | nil =>
    simp only [List.nil_append, searchXRest, if_true]
    congr 1
    rw [List.takeWhile_eq_self_iff]
    intro d hd'
    simp [hd d hd']
  | cons c cs ih =>
    have hc : c ≠ 120 := hn c (List.mem_cons_self c cs)
    simp only [List.cons_append, searchXRest, hc, if_false]
    exact ih (fun d hd => hn d (List.mem_cons_of_mem c hd))

theorem extractExtention_plain (num : List Nat) (hn : num.all isPlain = true) :
    extractExtention num = some (num, []) := by
  have h : num.any isLetterOrComma = false := by
    rw [List.any_eq_false]
    intro c hc
    simp [(isPlain_facts (List.all_eq_true.mp hn c hc)).2.1]
  simp [extractExtention, h]

theorem extractExtention_canonical (num e : List Nat) (hn : num.all isPlain = true)
    (he : isExtention e = true) :
    extractExtention (num ++ e) = some (num, e) := by
  obtain ⟨ds, rfl, hd, h1, h15⟩ := isExtention_cases he
  have hp : ∀ c ∈ num, isPlain c = true := List.all_eq_true.mp hn
  have hdd : ∀ c ∈ ds, isDigit c = true := List.all_eq_true.mp hd
  have hall : ∀ c ∈ num ++ 120 :: ds, isPlain c = true ∨ c = 120 := by
    intro c hc
    rcases List.mem_append.mp hc with hc | hc
    · exact Or.inl (hp c hc)
    · rcases List.mem_cons.mp hc with rfl | hc
      · exact Or.inr rfl
      · exact Or.inl (isPlain_of_isDigit (hdd c hc))
  have hany : (num ++ 120 :: ds).any isLetterOrComma = true := by
    rw [List.any_eq_true]
    exact ⟨120, by simp, by decide⟩
  have hlow : (num ++ 120 :: ds).map tolower = num ++ 120 :: ds := by
    conv => rhs; rw [← List.map_id (num ++ 120 :: ds)]
    apply List.map_congr_left
    intro c hc
    rcases hall c hc with h | rfl
    · exact (isPlain_facts h).2.2.2.2.1
    · decide
  have hx : (num ++ 120 :: ds).contains 120 = true := by simp
  have hne : ∀ c ∈ num ++ 120 :: ds, c ≠ 101 := by
    intro c hc
    rcases hall c hc with h | rfl
    · exact (isPlain_facts h).2.2.2.1
    · decide
  have hpat : bytes "extention" = 101 :: [120, 116, 101, 110, 116, 105, 111, 110] := by decide
  have hoth : (num ++ 120 :: ds).any isOtherLetter = false := by
    rw [List.any_eq_false]
    intro c hc
    rcases hall c hc with h | rfl
    · simp [(isPlain_facts h).2.2.2.2.2.1]
    · decide
  have hsearch : searchXRest (num ++ 120 :: ds) = 120 :: ds :=
    searchXRest_append num ds (fun c hc => (isPlain_facts (hp c hc)).2.2.1)
      (fun d hd' => (isDigit_facts (hdd d hd')).2.2.1)
  have hmatch : matchExtention (120 :: ds) = true := by
    cases ds with
    | nil => simp at h1
    | cons d r =>
      have hdig : isDigit d = true := hdd d (List.mem_cons_self d r)
      simp only [matchExtention, (isDigit_facts hdig).2.1, Bool.false_eq_true, if_false, hd,
        Bool.true_and, decide_eq_true_eq]
      exact h15
  have hrm : removeSpaces (120 :: ds) = 120 :: ds := by
    rw [removeSpaces_cons, removeSpaces_digits hd]
    simp [isSpace]
  unfold extractExtention
  simp only [hany, if_true, hlow, hx, smatchSize, hpat, replaceFirst_of_absent _ _ _ _ hne,
    replaceFirstExt_of_absent _ hne, hoth, hsearch, hmatch, hrm]
  simp

/-! ## Canonical numbers pass the number stages unchanged -/

theorem squeezeFrom_numChars (b : Bool) (s : List Nat) (h : ∀ c ∈ s, isNumChar c = true) :
    squeezeFrom b s = s := by
  induction s generalizing b with
  | nil => rfl
  | cons c cs ih =>
    simp only [squeezeFrom, h c (List.mem_cons_self c cs), if_true]
    rw [ih false (fun d hd => h d (List.mem_cons_of_mem c hd))]

theorem collapsePairs_noSpace (s : List Nat) (h : ∀ c ∈ s, isSpace c = false) :
    collapsePairs s = s := by
  induction s with
  | nil => rfl
  | cons a r ih =>
    cases r with
    | nil => rfl
    | cons b r =>
      have ha : isSpace a = false := h a (List.mem_cons_self a _)
      simp only [collapsePairs, ha, Bool.false_and, Bool.false_eq_true, if_false]
      rw [ih (fun d hd => h d (List.mem_cons_of_mem a hd))]

theorem isNumChar_facts {c : Nat} (h : isNumChar c = true) :
    isPlain c = true ∧ isSpace c = false ∧ c ≠ 32 := by
  simp only [isNumChar, isDigit, Bool.or_eq_true, Bool.and_eq_true, decide_eq_true_eq,
    beq_iff_eq] at h
  simp only [isPlain, isDigit, isSpace, Bool.or_eq_true, Bool.and_eq_true, decide_eq_true_eq,
    beq_iff_eq, Bool.or_eq_false_iff, Bool.and_eq_false_iff, decide_eq_false_iff_not,
    beq_eq_false_iff_ne, ne_eq]
  refine ⟨?_, ?_, ?_⟩ <;> omega

theorem popTrailingSpace_of_ne (s : List Nat) (hs : s ≠ []) (h : ∀ c ∈ s, c ≠ 32) :
    popTrailingSpace s = some s := by
  unfold popTrailingSpace
  have hl : s.getLast? = some (s.getLast hs) := List.getLast?_eq_getLast s hs
  rw [hl]
  simp [h _ (List.getLast_mem hs)]

theorem contains_dot_plain (s : List Nat) (h : ∀ c ∈ s, isPlain c = true) :
    s.contains 46 = false := by
  simp only [List.contains_eq_any_beq, List.any_eq_false, beq_iff_eq]
  intro c hc
  exact fun h46 => (isPlain_facts (h c hc)).2.2.2.2.2.2.1 h46.symm

theorem any_paren_plain (s : List Nat) (h : ∀ c ∈ s, isPlain c = true) :
    s.any isParen = false := by
  rw [List.any_eq_false]
  intro c hc
  simp [(isPlain_facts (h c hc)).2.2.2.2.2.2.2]

theorem parseNumber_international (num e : List Nat) (hm : matchInternational num = true)
    (hc : hasCountryCode num = true) (h001 : (bytes "+001").isPrefixOf num = false) :
    parseNumber num e = .accepted (num ++ e) := by
  obtain ⟨ds, rfl, hd, h7, h15⟩ := matchInternational_cases hm
  have hdd : ∀ c ∈ ds, isDigit c = true := List.all_eq_true.mp hd
  have hnum : ∀ c ∈ 43 :: ds, isNumChar c = true := by
    intro c hc
    rcases List.mem_cons.mp hc with rfl | hc
    · decide
    · exact (isDigit_facts (hdd c hc)).1
  have hpop : popTrailingSpace (43 :: ds) = some (43 :: ds) :=
    popTrailingSpace_of_ne _ (by simp) (fun c hc => (isNumChar_facts (hnum c hc)).2.2)
  have hplain : ∀ c ∈ 43 :: ds, isPlain c = true := fun c hc => (isNumChar_facts (hnum c hc)).1
  have hdot := contains_dot_plain _ hplain
  have hpar := any_paren_plain _ hplain
  have hsq : squeezeNumber (43 :: ds) = 43 :: ds := by
    unfold squeezeNumber squeeze
    rw [squeezeFrom_numChars _ _ hnum,
      collapsePairs_noSpace _ (fun c hc => (isNumChar_facts (hnum c hc)).2.1)]
    simp
  have hcond : (decide ((43 :: ds).headD 0 = 43) && (43 :: ds).take 3 != bytes "+1 ") = true := by
    have hb : bytes "+1 " = [43, 49, 32] := by decide
    rw [hb]
    match ds, h7, hdd with
    | d1 :: d2 :: r, _, hdd =>
      have := (isDigit_facts (hdd d2 (by simp))).2.2.2.1
      simp [this]
  have hrm : removeSpaces (43 :: ds) = 43 :: ds := by
    rw [removeSpaces_cons, removeSpaces_digits hd]
    simp [isSpace]
  unfold parseNumber
  simp only [hpop, hdot, hpar, smatchSize, hsq]
  simp only [parseBranches, if_pos hcond, parseInternational, hrm, hm, hc, h001]
  simp

theorem parseNumber_nanp (num e : List Nat) (hm : matchNANP num = true)
    (hlen : num.length = 12) (hc : hasAreaCode num = true) :
    parseNumber num e = .accepted (num ++ e) := by
  obtain ⟨a1, a2, a3, e1, e2, e3, s1, s2, s3, s4, rest, rfl, ha1, ha2, ha3, he1, he2, he3,
    hs1, hs2, hs3, hs4, hrest⟩ := matchNANP_cases hm
  have hr : rest = [] := by
    rcases hrest with rfl | rfl
    · rfl
    · simp at hlen
  subst hr
  have ha1' := isDigit_of_area ha1
  have f1 := isDigit_facts ha1'
  have f2 := isDigit_facts ha2
  have f3 := isDigit_facts ha3
  have f4 := isDigit_facts he1
  have f5 := isDigit_facts he2
  have f6 := isDigit_facts he3
  have f7 := isDigit_facts hs1
  have f8 := isDigit_facts hs2
  have f9 := isDigit_facts hs3
  have f10 := isDigit_facts hs4
  have hsp : isNumChar 32 = false := by decide
  have hss : isSpace 32 = true := by decide
  have hplain : ∀ c ∈ [a1, a2, a3, 32, e1, e2, e3, 32, s1, s2, s3, s4], isPlain c = true := by
    have h32 : isPlain 32 = true := by decide
    simp [isPlain_of_isDigit, ha1', ha2, ha3, he1, he2, he3, hs1, hs2, hs3, hs4, h32]
  have hpop : popTrailingSpace [a1, a2, a3, 32, e1, e2, e3, 32, s1, s2, s3, s4]
      = some [a1, a2, a3, 32, e1, e2, e3, 32, s1, s2, s3, s4] := by
    simp [popTrailingSpace, f10.2.2.2.1]
  have hdot := contains_dot_plain _ hplain
  have hpar := any_paren_plain _ hplain
  have hsq : squeezeNumber [a1, a2, a3, 32, e1, e2, e3, 32, s1, s2, s3, s4]
      = [a1, a2, a3, 32, e1, e2, e3, 32, s1, s2, s3, s4] := by
    simp [squeezeNumber, squeeze, squeezeFrom, collapsePairs, f1.1, f2.1, f3.1, f4.1, f5.1,
      f6.1, f7.1, f8.1, f9.1, f10.1, hsp, f1.2.1, f2.2.1, f3.2.1, f4.2.1, f5.2.1, f6.2.1,
      f7.2.1, f8.2.1, f9.2.1, f10.2.1, f1.2.2.2.1]
  have hb : bytes "+1 " = [43, 49, 32] := by decide
  unfold parseNumber
  simp only [hpop, hdot, hpar, smatchSize, hsq]
  simp [parseBranches, parseNANP, hb, f1.2.2.2.2, hm, hc]

theorem isExtention_chars {e : List Nat} (he : e = [] ∨ isExtention e = true) :
    ∀ c ∈ e, isSanityChar c = true := by
  rcases he with rfl | he
  · simp
  · obtain ⟨ds, rfl, hd, -⟩ := isExtention_cases he
    intro c hc
    rcases List.mem_cons.mp hc with rfl | hc
    · decide
    · exact (isPlain_facts (isPlain_of_isDigit (List.all_eq_true.mp hd c hc))).1

theorem validatePhoneNumber_canonical (num e : List Nat) (hn : num.all isPlain = true)
    (he : e = [] ∨ isExtention e = true) :
    validatePhoneNumber (num ++ e) = parseNumber num e := by
  have hsan : (num ++ e).any (fun c => !isSanityChar c) = false := by
    rw [List.any_eq_false]
    intro c hc
    rcases List.mem_append.mp hc with hc | hc
    · simp [(isPlain_facts (List.all_eq_true.mp hn c hc)).1]
    · simp [isExtention_chars he c hc]
  have hex : extractExtention (num ++ e) = some (num, e) := by
    rcases he with rfl | he
    · simpa using extractExtention_plain num hn
    · exact extractExtention_canonical num e hn he
  simp [validatePhoneNumber, hsan, hex]

theorem matchInternational_plain {num : List Nat} (hm : matchInternational num = true) :
    num.all isPlain = true := by
  obtain ⟨ds, rfl, hd, -⟩ := matchInternational_cases hm
  rw [List.all_eq_true]
  intro c hc
  rcases List.mem_cons.mp hc with rfl | hc
  · decide
  · exact isPlain_of_isDigit (List.all_eq_true.mp hd c hc)

/-- A result that is in one of the two canonical shapes (no space after the subscriber digits)
is a fixed point: validating it again accepts it and returns it unchanged. -/
theorem validatePhoneNumber_fixed_point (s c : List Nat)
    (h : validatePhoneNumber s = .accepted c)
    (hcanon : isNANPForm c = true ∨ isInternationalForm c = true) :
    validatePhoneNumber c = .accepted c := by
  obtain ⟨num, e, rfl, he, hs⟩ := validatePhoneNumber_accepted h
  rcases hs with ⟨hm, ha⟩ | ⟨hm, hc, h001⟩
  · obtain ⟨a1, a2, a3, e1, e2, e3, s1, s2, s3, s4, rest, rfl, ha1, ha2, ha3, he1, he2, he3,
      hs1, hs2, hs3, hs4, hrest⟩ := matchNANP_cases hm
    have ha1' := isDigit_of_area ha1
    have hr : rest = [] := by
      rcases hrest with rfl | rfl
      · rfl
      · exfalso
        have h43 : a1 ≠ 43 := (isDigit_facts ha1').2.2.2.2
        rcases hcanon with hcan | hcan
        · simp [isNANPForm, isExtention] at hcan
        · simp only [List.cons_append, isInternationalForm] at hcan
          split at hcan
          · rename_i heq
            simp only [List.cons.injEq] at heq
            exact h43 heq.1
          · simp at hcan
    subst hr
    have hplain : [a1, a2, a3, 32, e1, e2, e3, 32, s1, s2, s3, s4].all isPlain = true := by
      have h32 : isPlain 32 = true := by decide
      simp [isPlain_of_isDigit, ha1', ha2, ha3, he1, he2, he3, hs1, hs2, hs3, hs4, h32]
    rw [validatePhoneNumber_canonical _ _ hplain he]
    exact parseNumber_nanp _ _ hm rfl ha
  · rw [validatePhoneNumber_canonical _ _ (matchInternational_plain hm) he]
    exact parseNumber_international _ _ hm hc h001

/-- Example of `validatePhoneNumber_fixed_point`, at the input `(972) 964-4333 ext 7`. -/
theorem validatePhoneNumber_fixed_point_witness :
    validatePhoneNumber (bytes "972 964 4333x7") = .accepted (bytes "972 964 4333x7") :=
  validatePhoneNumber_fixed_point (bytes "(972) 964-4333 ext 7") (bytes "972 964 4333x7")
    (by decide) (by decide)

/-- Claim C2 at its failing input: `972 964 4333- x12` is accepted with the result
`972 964 4333 x12`, which keeps the space the squeeze made after the strip of line 166, and
validating that result returns the different text `972 964 4333x12`. -/
theorem validatePhoneNumber_not_fixed_point :
    validatePhoneNumber (bytes "972 964 4333- x12") = .accepted (bytes "972 964 4333 x12")
      ∧ validatePhoneNumber (bytes "972 964 4333 x12") = .accepted (bytes "972 964 4333x12")
      ∧ bytes "972 964 4333 x12" ≠ bytes "972 964 4333x12" := by
  decide

/-- Claim C3 at its failing inputs: the empty string and the extension-only string `x12` reach
`back()` on an empty string, and `+0011234` reaches `insert(6, " ")` on the four characters
`1234`. -/
theorem validatePhoneNumber_out_of_bounds :
    validatePhoneNumber [] = .fault .backOnEmpty
      ∧ validatePhoneNumber (bytes "x12") = .fault .backOnEmpty
      ∧ validatePhoneNumber (bytes "+0011234") = .fault .insertOutOfRange := by
  decide

/-- Claim C7 at its failing input: `972.964.4333` holds two dots and is accepted, because the
size of the match result is never greater than one. -/
theorem validatePhoneNumber_two_dots :
    (bytes "972.964.4333").count 46 = 2
      ∧ validatePhoneNumber (bytes "972.964.4333") = .accepted (bytes "972 964 4333")
      ∧ ∀ p : List Nat, ¬ smatchSize (p.contains 46) 0 > 1 := by
  refine ⟨by decide, by decide, ?_⟩
  intro p
  unfold smatchSize
  split <;> omega

/-- Claim C8, as amended: in an accepted result that does not begin with `+`, the area code
begins with a digit from 2 to 9 and the exchange code begins with a digit (any of 0 to 9). -/
theorem validatePhoneNumber_nanp_leading_digits (s c : List Nat)
    (h : validatePhoneNumber s = .accepted c) (hn : c.head? ≠ some 43) :
    (50 ≤ c.getD 0 0 ∧ c.getD 0 0 ≤ 57) ∧ isDigit (c.getD 4 0) = true := by
  obtain ⟨num, e, rfl, -, hs⟩ := validatePhoneNumber_accepted h
  rcases hs with ⟨hm, -⟩ | ⟨hm, -, -⟩
  · obtain ⟨a1, a2, a3, e1, e2, e3, s1, s2, s3, s4, rest, rfl, ha1, ha2, ha3, he1, he2, he3,
      hs1, hs2, hs3, hs4, hrest⟩ := matchNANP_cases hm
    simpa using ⟨ha1, he1⟩
  · obtain ⟨ds, rfl, -⟩ := matchInternational_cases hm
    simp at hn

/-- Witness for C8 as amended, at the input `(972) 964-4333`. -/
theorem validatePhoneNumber_nanp_leading_digits_witness :
    (50 ≤ (bytes "972 964 4333").getD 0 0 ∧ (bytes "972 964 4333").getD 0 0 ≤ 57)
      ∧ isDigit ((bytes "972 964 4333").getD 4 0) = true :=
  validatePhoneNumber_nanp_leading_digits (bytes "(972) 964-4333") (bytes "972 964 4333")
    (by decide) (by decide)

/-- Counterexample to C8 as stated: `972 064 4333` is accepted in the North American form and
the fifth character of its result, the first of the exchange code, is the digit `0`. -/
theorem validatePhoneNumber_exchange_zero :
    validatePhoneNumber (bytes "972 064 4333") = .accepted (bytes "972 064 4333")
      ∧ (bytes "972 064 4333").getD 4 0 = 48 := by
  decide

/-! ## Counting the letter `x` through the extension stage -/

theorem count_replaceFirst (x : Nat) (pat rep s : List Nat) (h : pat.count x = rep.count x) :
    (replaceFirst pat rep s).count x = s.count x := by
  induction s with
  | nil => rfl
  | cons c cs ih =>
    by_cases hp : pat.isPrefixOf (c :: cs) = true
    · simp only [replaceFirst, hp, if_true]
      obtain ⟨t, ht⟩ := List.isPrefixOf_iff_prefix.mp hp
      rw [← ht, List.drop_left, List.count_append, List.count_append, h]
    · simp only [replaceFirst, hp, if_false, Bool.false_eq_true, List.count_cons, ih]

theorem count_replaceFirstExt (s : List Nat) :
    (replaceFirstExt s).count 120 = s.count 120 := by
  induction s with
  | nil => rfl
  | cons c cs ih =>
    have hb4 : bytes "ext." = [101, 120, 116, 46] := by decide
    have hb3 : bytes "ext" = [101, 120, 116] := by decide
    by_cases h4 : (bytes "ext.").isPrefixOf (c :: cs) = true
    · simp only [replaceFirstExt, h4, if_true]
      obtain ⟨t, ht⟩ := List.isPrefixOf_iff_prefix.mp h4
      rw [← ht, hb4]
      simp
    · by_cases h3 : (bytes "ext").isPrefixOf (c :: cs) = true
      · simp only [replaceFirstExt, h4, h3, if_true, if_false, Bool.false_eq_true]
        obtain ⟨t, ht⟩ := List.isPrefixOf_iff_prefix.mp h3
        rw [← ht, hb3]
        simp
      · simp only [replaceFirstExt, h4, h3, if_false, Bool.false_eq_true, List.count_cons, ih]

theorem mem_replaceFirst {pat rep s : List Nat} {c : Nat}
    (h : c ∈ replaceFirst pat rep s) : c ∈ s ∨ c ∈ rep := by
  induction s with
  | nil => simp [replaceFirst] at h
  | cons d ds ih =>
    by_cases hp : pat.isPrefixOf (d :: ds) = true
    · simp only [replaceFirst, hp, if_true] at h
      rcases List.mem_append.mp h with h | h
      · exact Or.inr h
      · exact Or.inl (List.mem_of_mem_drop h)
    · simp only [replaceFirst, hp, if_false, Bool.false_eq_true] at h
      rcases List.mem_cons.mp h with rfl | h
      · exact Or.inl (List.mem_cons_self _ _)
      · rcases ih h with h | h
        · exact Or.inl (List.mem_cons_of_mem _ h)
        · exact Or.inr h

theorem mem_replaceFirstExt {s : List Nat} {c : Nat}
    (h : c ∈ replaceFirstExt s) : c ∈ s ∨ c = 120 := by
  induction s with
  | nil => simp [replaceFirstExt] at h
  | cons d ds ih =>
    by_cases h4 : (bytes "ext.").isPrefixOf (d :: ds) = true
    · simp only [replaceFirstExt, h4, if_true] at h
      rcases List.mem_cons.mp h with rfl | h
      · exact Or.inr rfl
      · exact Or.inl (List.mem_of_mem_drop h)
    · by_cases h3 : (bytes "ext").isPrefixOf (d :: ds) = true
      · simp only [replaceFirstExt, h4, h3, if_true, if_false, Bool.false_eq_true] at h
        rcases List.mem_cons.mp h with rfl | h
        · exact Or.inr rfl
        · exact Or.inl (List.mem_of_mem_drop h)
      · simp only [replaceFirstExt, h4, h3, if_false, Bool.false_eq_true] at h
        rcases List.mem_cons.mp h with rfl | h
        · exact Or.inl (List.mem_cons_self _ _)
        · rcases ih h with h | h
          · exact Or.inl (List.mem_cons_of_mem _ h)
          · exact Or.inr h

theorem count_searchXRest (s : List Nat) (h : ∀ c ∈ s, isLineTerminator c = false) :
    (searchXRest s).count 120 = s.count 120 := by
  induction s with
  | nil => rfl
  | cons c cs ih =>
    have hcs : ∀ d ∈ cs, isLineTerminator d = false :=
      fun d hd => h d (List.mem_cons_of_mem c hd)
    by_cases hc : c = 120
    · have ht : cs.takeWhile (fun d => !isLineTerminator d) = cs := by
        rw [List.takeWhile_eq_self_iff]
        intro d hd
        simp [hcs d hd]
      simp only [searchXRest, hc, if_true, ht]
    · simp only [searchXRest, hc, if_false]
      rw [ih hcs, List.count_cons_of_ne (Ne.symm hc)]

theorem count_x_digits {ds : List Nat} (h : ds.all isDigit = true) : ds.count 120 = 0 := by
  rw [List.count_eq_zero]
  intro hm
  have := List.all_eq_true.mp h 120 hm
  simp [isDigit] at this

theorem count_x_matchExtention {e : List Nat} (h : matchExtention e = true) :
    e.count 120 = 1 := by
  unfold matchExtention at h
  split at h
  · rename_i s r
    split at h
    · rename_i hs
      simp only [Bool.and_eq_true] at h
      have hs120 : s ≠ 120 := by
        rintro rfl
        simp [isSpace] at hs
      simp [List.count_cons, count_x_digits h.1.1, hs120]
    · simp only [Bool.and_eq_true] at h
      have := count_x_digits h.1
      simp [List.count_cons] at this ⊢
      omega
  · simp at h

theorem not_lineTerminator_tolower {c : Nat} (h : isSanityChar c = true) :
    isLineTerminator (tolower c) = false := by
  simp only [isSanityChar, isLetter, isDigit, Bool.or_eq_true, Bool.and_eq_true,
    decide_eq_true_eq, beq_iff_eq] at h
  simp only [isLineTerminator, tolower, Bool.or_eq_false_iff, beq_eq_false_iff_ne, ne_eq]
  split_ifs <;> omega

/-- Claim C9: an input that holds a letter or a comma and in which the letter `x`, counted after
lower-casing, does not occur exactly once is rejected. -/
theorem validatePhoneNumber_x_count (s : List Nat) (hl : s.any isLetterOrComma = true)
    (hx : (s.map tolower).count 120 ≠ 1) : validatePhoneNumber s = .rejected := by
  unfold validatePhoneNumber
  split_ifs with hsan
  · rfl
  · have hsan' : ∀ c ∈ s, isSanityChar c = true := by
      intro c hc
      by_contra hcon
      exact hsan (List.any_eq_true.mpr ⟨c, hc, by simpa using hcon⟩)
    have hnone : extractExtention s = none := by
      unfold extractExtention
      simp only [hl, if_true]
      split_ifs with h1 h2 h3
      · rfl
      · rfl
      · rfl
      · exfalso
        have hlt : ∀ c ∈ replaceFirstExt (replaceFirst (bytes "extention") (bytes "ext.")
            (s.map tolower)), isLineTerminator c = false := by
          intro c hc
          rcases mem_replaceFirstExt hc with hc | rfl
          · rcases mem_replaceFirst hc with hc | hc
            · obtain ⟨d, hd, rfl⟩ := List.mem_map.mp hc
              exact not_lineTerminator_tolower (hsan' d hd)
            · have hb : bytes "ext." = [101, 120, 116, 46] := by decide
              rw [hb] at hc
              simp only [List.mem_cons, List.mem_singleton, List.not_mem_nil, or_false] at hc
              rcases hc with rfl | rfl | rfl | rfl <;> decide
          · decide
        have hcount := count_x_matchExtention (by simpa using h3)
        rw [count_searchXRest _ hlt, count_replaceFirstExt,
          count_replaceFirst 120 _ _ _ (by decide)] at hcount
        exact hx hcount
    rw [hnone]

/-- Witness for C9, at the input `972-964-4333 x1x2` with two letters `x`. -/
theorem validatePhoneNumber_x_count_witness :
    validatePhoneNumber (bytes "972-964-4333 x1x2") = .rejected :=
  validatePhoneNumber_x_count (bytes "972-964-4333 x1x2") (by decide) (by decide)

/-! ## Extension markers -/

theorem isDialChar_facts {c : Nat} (h : isDialChar c = true) :
    isSanityChar c = true ∧ tolower c = c ∧ c ≠ 120 ∧ c ≠ 101 ∧ isOtherLetter c = false
      ∧ isLineTerminator c = false ∧ c ≠ 46 := by
  simp only [isDialChar, isDigit, Bool.or_eq_true, Bool.and_eq_true, decide_eq_true_eq,
    beq_iff_eq] at h
  simp only [isSanityChar, isLetter, isDigit, tolower, isOtherLetter, isLineTerminator,
    Bool.or_eq_true, Bool.and_eq_true, decide_eq_true_eq, beq_iff_eq, Bool.or_eq_false_iff,
    Bool.and_eq_false_iff, decide_eq_false_iff_not, beq_eq_false_iff_ne, ne_eq]
  refine ⟨?_, ?_, ?_, ?_, ?_, ?_, ?_⟩ <;> first | omega | (split_ifs <;> omega)

theorem isDialChar_of_isDigit {c : Nat} (h : isDigit c = true) : isDialChar c = true := by
  simp [isDialChar, h]

theorem isSanityChar_of_tolower {c : Nat} (h : isSanityChar (tolower c) = true) :
    isSanityChar c = true := by
  unfold tolower at h
  split_ifs at h with hc
  · simp only [isSanityChar, isLetter, Bool.or_eq_true, Bool.and_eq_true, decide_eq_true_eq]
    omega
  · exact h

theorem replaceFirst_cons_neg {pat rep cs : List Nat} {c : Nat}
    (h : pat.isPrefixOf (c :: cs) = false) :
    replaceFirst pat rep (c :: cs) = c :: replaceFirst pat rep cs := by
  simp only [replaceFirst, h, Bool.false_eq_true, if_false]

theorem replaceFirst_cons_pos {pat rep cs : List Nat} {c : Nat}
    (h : pat.isPrefixOf (c :: cs) = true) :
    replaceFirst pat rep (c :: cs) = rep ++ (c :: cs).drop pat.length := by
  simp only [replaceFirst, h, if_true]

theorem replaceFirstExt_cons_neg {cs : List Nat} {c : Nat}
    (h4 : (bytes "ext.").isPrefixOf (c :: cs) = false)
    (h3 : (bytes "ext").isPrefixOf (c :: cs) = false) :
    replaceFirstExt (c :: cs) = c :: replaceFirstExt cs := by
  simp only [replaceFirstExt, h4, h3, Bool.false_eq_true, if_false]

theorem replaceFirstExt_cons_dot {cs : List Nat} {c : Nat}
    (h4 : (bytes "ext.").isPrefixOf (c :: cs) = true) :
    replaceFirstExt (c :: cs) = 120 :: (c :: cs).drop 4 := by
  simp only [replaceFirstExt, h4, if_true]

theorem replaceFirstExt_cons_ext {cs : List Nat} {c : Nat}
    (h4 : (bytes "ext.").isPrefixOf (c :: cs) = false)
    (h3 : (bytes "ext").isPrefixOf (c :: cs) = true) :
    replaceFirstExt (c :: cs) = 120 :: (c :: cs).drop 3 := by
  simp only [replaceFirstExt, h4, h3, Bool.false_eq_true, if_false, if_true]

theorem replaceFirst_append_absent (p : Nat) (ps rep pre rest : List Nat)
    (h : ∀ c ∈ pre, c ≠ p) :
    replaceFirst (p :: ps) rep (pre ++ rest) = pre ++ replaceFirst (p :: ps) rep rest := by
  induction pre with
  | nil => rfl
  | cons c cs ih =>
    have hc : (p == c) = false := by
      simpa using fun hpc => h c (List.mem_cons_self c cs) hpc.symm
    have : (p :: ps).isPrefixOf (c :: (cs ++ rest)) = false := by simp [List.isPrefixOf, hc]
    rw [List.cons_append, replaceFirst_cons_neg this,
      ih (fun d hd => h d (List.mem_cons_of_mem c hd)), List.cons_append]

theorem replaceFirstExt_append_absent (pre rest : List Nat) (h : ∀ c ∈ pre, c ≠ 101) :
    replaceFirstExt (pre ++ rest) = pre ++ replaceFirstExt rest := by
  induction pre with
  | nil => rfl
  | cons c cs ih =>
    have hc : ¬ (101 = c) := fun hpc => h c (List.mem_cons_self c cs) hpc.symm
    have h4 : (bytes "ext.").isPrefixOf (c :: (cs ++ rest)) = false := by
      have : bytes "ext." = [101, 120, 116, 46] := by decide
      simp [this, List.isPrefixOf, hc]
    have h3 : (bytes "ext").isPrefixOf (c :: (cs ++ rest)) = false := by
      have : bytes "ext" = [101, 120, 116] := by decide
      simp [this, List.isPrefixOf, hc]
    rw [List.cons_append, replaceFirstExt_cons_neg h4 h3,
      ih (fun d hd => h d (List.mem_cons_of_mem c hd)), List.cons_append]

/-- The two rewrites of lines 143 and 145 turn each of the four markers into a single `x`. -/
theorem rewrite_marker (pre marker tail : List Nat) (hpre : ∀ c ∈ pre, isDialChar c = true)
    (hm : marker ∈ [bytes "x", bytes "ext", bytes "ext.", bytes "extention"])
    (ht : ∀ c ∈ tail, isDialChar c = true) :
    replaceFirstExt (replaceFirst (bytes "extention") (bytes "ext.") (pre ++ marker ++ tail))
      = pre ++ 120 :: tail := by
  have hpat : bytes "extention" = 101 :: [120, 116, 101, 110, 116, 105, 111, 110] := by decide
  have hb4 : bytes "ext." = [101, 120, 116, 46] := by decide
  have hb3 : bytes "ext" = [101, 120, 116] := by decide
  have hb1 : bytes "x" = [120] := by decide
  have hpre101 : ∀ c ∈ pre, c ≠ 101 := fun c hc => (isDialChar_facts (hpre c hc)).2.2.2.1
  have ht101 : ∀ c ∈ tail, c ≠ 101 := fun c hc => (isDialChar_facts (ht c hc)).2.2.2.1
  have ht46 : ∀ c ∈ tail, c ≠ 46 := fun c hc => (isDialChar_facts (ht c hc)).2.2.2.2.2.2
  rw [List.append_assoc, hpat, replaceFirst_append_absent 101 _ _ _ _ hpre101]
  simp only [List.mem_cons, List.mem_singleton, List.not_mem_nil, or_false] at hm
  rcases hm with rfl | rfl | rfl | rfl
  · have habs : ∀ c ∈ bytes "x" ++ tail, c ≠ 101 := by
      intro c hc
      rw [hb1] at hc
      rcases List.mem_cons.mp hc with rfl | hc
      · decide
      · exact ht101 c hc
    rw [replaceFirst_of_absent 101 _ _ _ habs, replaceFirstExt_append_absent _ _ hpre101, hb1]
    have h4 : (bytes "ext.").isPrefixOf (120 :: tail) = false := by
      simp [hb4, List.isPrefixOf]
    have h3 : (bytes "ext").isPrefixOf (120 :: tail) = false := by
      simp [hb3, List.isPrefixOf]
    rw [List.singleton_append, replaceFirstExt_cons_neg h4 h3, replaceFirstExt_of_absent _ ht101]
  · have hp : (101 :: [120, 116, 101, 110, 116, 105, 111, 110]).isPrefixOf
        (101 :: 120 :: 116 :: tail) = false := by
      cases tail with
      | nil => simp [List.isPrefixOf]
      | cons t T =>
        have := ht101 t (List.mem_cons_self t T)
        simp [List.isPrefixOf, Ne.symm this]
    have habs : ∀ c ∈ 120 :: 116 :: tail, c ≠ 101 := by
      intro c hc
      rcases List.mem_cons.mp hc with rfl | hc
      · decide
      · rcases List.mem_cons.mp hc with rfl | hc
        · decide
        · exact ht101 c hc
    have h4 : (bytes "ext.").isPrefixOf (101 :: 120 :: 116 :: tail) = false := by
      cases tail with
      | nil => simp [hb4, List.isPrefixOf]
      | cons t T =>
        have := ht46 t (List.mem_cons_self t T)
        simp [hb4, List.isPrefixOf, Ne.symm this]
    have h3 : (bytes "ext").isPrefixOf (101 :: 120 :: 116 :: tail) = true := by
      simp [hb3, List.isPrefixOf]
    rw [hb3]
    show replaceFirstExt (pre ++ replaceFirst _ _ (101 :: 120 :: 116 :: tail)) = _
    rw [replaceFirst_cons_neg hp, replaceFirst_of_absent 101 _ _ _ habs,
      replaceFirstExt_append_absent _ _ hpre101, replaceFirstExt_cons_ext h4 h3]
    rfl
  · have hp : (101 :: [120, 116, 101, 110, 116, 105, 111, 110]).isPrefixOf
        (101 :: 120 :: 116 :: 46 :: tail) = false := by
      simp [List.isPrefixOf]
    have habs : ∀ c ∈ 120 :: 116 :: 46 :: tail, c ≠ 101 := by
      intro c hc
      rcases List.mem_cons.mp hc with rfl | hc
      · decide
      · rcases List.mem_cons.mp hc with rfl | hc
        · decide
        · rcases List.mem_cons.mp hc with rfl | hc
          · decide
          · exact ht101 c hc
    have h4 : (bytes "ext.").isPrefixOf (101 :: 120 :: 116 :: 46 :: tail) = true := by
      simp [hb4, List.isPrefixOf]
    rw [hb4]
    show replaceFirstExt (pre ++ replaceFirst _ _ (101 :: 120 :: 116 :: 46 :: tail)) = _
    rw [replaceFirst_cons_neg hp, replaceFirst_of_absent 101 _ _ _ habs,
      replaceFirstExt_append_absent _ _ hpre101, replaceFirstExt_cons_dot h4]
    rfl
  · have hp : (101 :: [120, 116, 101, 110, 116, 105, 111, 110]).isPrefixOf
        (101 :: 120 :: 116 :: 101 :: 110 :: 116 :: 105 :: 111 :: 110 :: tail) = true := by
      simp [List.isPrefixOf]
    have h4 : (bytes "ext.").isPrefixOf (101 :: 120 :: 116 :: 46 :: tail) = true := by
      simp [hb4, List.isPrefixOf]
    rw [hpat]
    show replaceFirstExt (pre ++ replaceFirst _ (bytes "ext.")
      (101 :: 120 :: 116 :: 101 :: 110 :: 116 :: 105 :: 111 :: 110 :: tail)) = _
    rw [replaceFirst_cons_pos hp, hb4]
    show replaceFirstExt (pre ++ (101 :: 120 :: 116 :: 46 :: tail)) = _
    rw [replaceFirstExt_append_absent _ _ hpre101, replaceFirstExt_cons_dot h4]
    rfl

theorem isLetterOrComma_of_tolower_x {c : Nat} (h : tolower c = 120) :
    isLetterOrComma c = true := by
  unfold tolower at h
  simp only [isLetterOrComma, isLetter, Bool.or_eq_true, Bool.and_eq_true, decide_eq_true_eq,
    beq_iff_eq]
  split_ifs at h <;> omega

theorem map_tolower_dial (s : List Nat) (h : ∀ c ∈ s, isDialChar c = true) :
    s.map tolower = s := by
  conv => rhs; rw [← List.map_id s]
  apply List.map_congr_left
  intro c hc
  exact (isDialChar_facts (h c hc)).2.1

theorem mem_x_of_marker {marker : List Nat}
    (hm : marker ∈ [bytes "x", bytes "ext", bytes "ext.", bytes "extention"]) :
    120 ∈ marker := by
  simp only [List.mem_cons, List.mem_singleton, List.not_mem_nil, or_false] at hm
  rcases hm with rfl | rfl | rfl | rfl <;> decide

theorem marker_chars {marker : List Nat}
    (hm : marker ∈ [bytes "x", bytes "ext", bytes "ext.", bytes "extention"]) :
    ∀ c ∈ marker, isSanityChar c = true := by
  simp only [List.mem_cons, List.mem_singleton, List.not_mem_nil, or_false] at hm
  rcases hm with rfl | rfl | rfl | rfl <;> decide

/-- Lines 131-163 on a number written with digits, hyphens and spaces that is followed by an
extension marker in any letter case, an optional space and 1 to 15 digits. -/
theorem extractExtention_marker (pre m sp D : List Nat)
    (hpre : ∀ c ∈ pre, isDialChar c = true)
    (hm : m.map tolower ∈ [bytes "x", bytes "ext", bytes "ext.", bytes "extention"])
    (hsp : sp = [] ∨ sp = [32]) (hD : D.all isDigit = true) (h1 : 1 ≤ D.length)
    (h15 : D.length ≤ 15) :
    extractExtention (pre ++ m ++ sp ++ D) = some (pre, 120 :: D) := by
  have hDd : ∀ c ∈ D, isDigit c = true := List.all_eq_true.mp hD
  have htail : ∀ c ∈ sp ++ D, isDialChar c = true := by
    intro c hc
    rcases List.mem_append.mp hc with hc | hc
    · rcases hsp with rfl | rfl
      · simp at hc
      · simp only [List.mem_singleton] at hc
        subst hc
        decide
    · exact isDialChar_of_isDigit (hDd c hc)
  have hany : (pre ++ m ++ sp ++ D).any isLetterOrComma = true := by
    obtain ⟨c, hc, hcx⟩ := List.mem_map.mp (mem_x_of_marker hm)
    rw [List.any_eq_true]
    exact ⟨c, by simp [hc], isLetterOrComma_of_tolower_x hcx⟩
  have hlow : (pre ++ m ++ sp ++ D).map tolower = pre ++ m.map tolower ++ (sp ++ D) := by
    rw [List.append_assoc, List.map_append, List.map_append, map_tolower_dial _ hpre,
      map_tolower_dial _ htail]
  have hx : (pre ++ m.map tolower ++ (sp ++ D)).contains 120 = true := by
    simp [mem_x_of_marker hm]
  have hrew := rewrite_marker pre (m.map tolower) (sp ++ D) hpre hm htail
  have hall : ∀ c ∈ pre ++ 120 :: (sp ++ D), isDialChar c = true ∨ c = 120 := by
    intro c hc
    rcases List.mem_append.mp hc with hc | hc
    · exact Or.inl (hpre c hc)
    · rcases List.mem_cons.mp hc with rfl | hc
      · exact Or.inr rfl
      · exact Or.inl (htail c hc)
  have hoth : (pre ++ 120 :: (sp ++ D)).any isOtherLetter = false := by
    rw [List.any_eq_false]
    intro c hc
    rcases hall c hc with h | rfl
    · simp [(isDialChar_facts h).2.2.2.2.1]
    · decide
  have hsearch : searchXRest (pre ++ 120 :: (sp ++ D)) = 120 :: (sp ++ D) :=
    searchXRest_append pre (sp ++ D) (fun c hc => (isDialChar_facts (hpre c hc)).2.2.1)
      (fun d hd => (isDialChar_facts (htail d hd)).2.2.2.2.2.1)
  have htake : (pre ++ 120 :: (sp ++ D)).take
      ((pre ++ 120 :: (sp ++ D)).length - (120 :: (sp ++ D)).length) = pre := by
    rw [List.length_append, Nat.add_sub_cancel, List.take_left]
  have hmatch : matchExtention (120 :: (sp ++ D)) = true := by
    match D, h1, hD, h15 with
    | d :: r, _, hD, h15 =>
      have hds : isSpace d = false :=
        not_isSpace_of_isDigit (List.all_eq_true.mp hD d (List.mem_cons_self d r))
      have h32 : isSpace 32 = true := by decide
      rcases hsp with rfl | rfl
      · simp only [List.nil_append, matchExtention, hds, Bool.false_eq_true, if_false, hD,
          Bool.true_and, decide_eq_true_eq]
        exact h15
      · simp only [List.singleton_append, matchExtention, h32, if_true, hD, Bool.true_and,
          Bool.and_eq_true, decide_eq_true_eq]
        exact ⟨by simp, h15⟩
  have hrm : removeSpaces (120 :: (sp ++ D)) = 120 :: D := by
    have hx120 : isSpace 120 = false := by decide
    have h32 : isSpace 32 = true := by decide
    rcases hsp with rfl | rfl
    · simp [removeSpaces_cons, hx120, removeSpaces_digits hD]
    · simp [removeSpaces_cons, hx120, h32, removeSpaces_digits hD]
  unfold extractExtention
  simp only [hany, if_true, hlow, hx, smatchSize, hrew, hoth, hsearch, htake, hmatch, hrm]
  simp

/-! ## Area codes -/

theorem areaCodes_shape : (areaCodes.map bytes).all (fun A =>
    match A with
    | [a1, a2, a3] => decide (50 ≤ a1) && decide (a1 ≤ 57) && isDigit a2 && isDigit a3
    | _ => false) = true := by
  decide

theorem areaCode_cases {A : List Nat} (hA : A ∈ areaCodes.map bytes) :
    ∃ a1 a2 a3, A = [a1, a2, a3] ∧ (50 ≤ a1 ∧ a1 ≤ 57) ∧ isDigit a2 = true
      ∧ isDigit a3 = true := by
  have h := List.all_eq_true.mp areaCodes_shape A hA
  split at h
  · rename_i a1 a2 a3
    simp only [Bool.and_eq_true, decide_eq_true_eq] at h
    exact ⟨a1, a2, a3, rfl, ⟨h.1.1.1, h.1.1.2⟩, h.1.2, h.2⟩
  · simp at h

theorem hasAreaCode_append {A : List Nat} (hA : A ∈ areaCodes.map bytes) (rest : List Nat) :
    hasAreaCode (A ++ rest) = true := by
  obtain ⟨code, hcode, rfl⟩ := List.mem_map.mp hA
  unfold hasAreaCode
  rw [List.any_eq_true]
  exact ⟨code, hcode, List.isPrefixOf_iff_prefix.mpr (List.prefix_append _ _)⟩

theorem length_three {E : List Nat} (h : E.length = 3) : ∃ e1 e2 e3, E = [e1, e2, e3] := by
  match E, h with
  | [e1, e2, e3], _ => exact ⟨e1, e2, e3, rfl⟩

theorem length_four {S : List Nat} (h : S.length = 4) :
    ∃ s1 s2 s3 s4, S = [s1, s2, s3, s4] := by
  match S, h with
  | [s1, s2, s3, s4], _ => exact ⟨s1, s2, s3, s4, rfl⟩

/-- The stages after the extension split on the text `A-E-S ` (with its trailing space). -/
theorem parseNumber_hyphenated (A e : List Nat) (e1 e2 e3 s1 s2 s3 s4 : Nat)
    (hA : A ∈ areaCodes.map bytes)
    (he1 : isDigit e1 = true) (he2 : isDigit e2 = true) (he3 : isDigit e3 = true)
    (hs1 : isDigit s1 = true) (hs2 : isDigit s2 = true) (hs3 : isDigit s3 = true)
    (hs4 : isDigit s4 = true) :
    parseNumber (A ++ [45, e1, e2, e3, 45, s1, s2, s3, s4, 32]) e
      = .accepted (A ++ [32, e1, e2, e3, 32, s1, s2, s3, s4] ++ e) := by
  have harea := hasAreaCode_append hA [32, e1, e2, e3, 32, s1, s2, s3, s4]
  obtain ⟨a1, a2, a3, rfl, ha1, ha2, ha3⟩ := areaCode_cases hA
  have ha1' := isDigit_of_area ha1
  have f1 := isDigit_facts ha1'
  have f2 := isDigit_facts ha2
  have f3 := isDigit_facts ha3
  have f4 := isDigit_facts he1
  have f5 := isDigit_facts he2
  have f6 := isDigit_facts he3
  have f7 := isDigit_facts hs1
  have f8 := isDigit_facts hs2
  have f9 := isDigit_facts hs3
  have f10 := isDigit_facts hs4
  have hsp : isNumChar 32 = false := by decide
  have hhy : isNumChar 45 = false := by decide
  have hss : isSpace 32 = true := by decide
  have hpop : popTrailingSpace ([a1, a2, a3] ++ [45, e1, e2, e3, 45, s1, s2, s3, s4, 32])
      = some [a1, a2, a3, 45, e1, e2, e3, 45, s1, s2, s3, s4] := by
    simp [popTrailingSpace]
  have hdial : ∀ c ∈ [a1, a2, a3, 45, e1, e2, e3, 45, s1, s2, s3, s4],
      isDialChar c = true := by
    have h45 : isDialChar 45 = true := by decide
    simp [isDialChar_of_isDigit, ha1', ha2, ha3, he1, he2, he3, hs1, hs2, hs3, hs4, h45]
  have hdot : [a1, a2, a3, 45, e1, e2, e3, 45, s1, s2, s3, s4].contains 46 = false := by
    simp only [List.contains_eq_any_beq, List.any_eq_false, beq_iff_eq]
    intro c hc
    exact fun h46 => (isDialChar_facts (hdial c hc)).2.2.2.2.2.2 h46.symm
  have hpar : [a1, a2, a3, 45, e1, e2, e3, 45, s1, s2, s3, s4].any isParen = false := by
    rw [List.any_eq_false]
    intro c hc
    have := hdial c hc
    simp only [isDialChar, isDigit, Bool.or_eq_true, Bool.and_eq_true, decide_eq_true_eq,
      beq_iff_eq] at this
    simp only [isParen, Bool.or_eq_true, beq_iff_eq]
    omega
  have hsq : squeezeNumber [a1, a2, a3, 45, e1, e2, e3, 45, s1, s2, s3, s4]
      = [a1, a2, a3, 32, e1, e2, e3, 32, s1, s2, s3, s4] := by
    simp [squeezeNumber, squeeze, squeezeFrom, collapsePairs, f1.1, f2.1, f3.1, f4.1, f5.1,
      f6.1, f7.1, f8.1, f9.1, f10.1, hsp, hhy, f1.2.1, f2.2.1, f3.2.1, f4.2.1, f5.2.1, f6.2.1,
      f7.2.1, f8.2.1, f9.2.1, f10.2.1, f1.2.2.2.1]
  have hm : matchNANP [a1, a2, a3, 32, e1, e2, e3, 32, s1, s2, s3, s4] = true := by
    simp [matchNANP, ha1.1, ha1.2, ha2, ha3, he1, he2, he3, hs1, hs2, hs3, hs4]
  have hb : bytes "+1 " = [43, 49, 32] := by decide
  unfold parseNumber
  simp only [hpop, hdot, hpar, smatchSize, hsq]
  simp only [List.cons_append, List.nil_append] at harea
  simp [parseBranches, parseNANP, hb, f1.2.2.2.2, hm, harea]

/-- Claim C10: a hyphenated North American number with a listed area code, followed by a space,
one of the markers `x`, `ext`, `ext.`, `extention` in any letter case, an optional space and an
extension of 1 to 15 digits, is accepted; the marker and the space become one `x`. -/
theorem validatePhoneNumber_extension_marker (A E S D m sp : List Nat)
    (hA : A ∈ areaCodes.map bytes)
    (hE : E.length = 3) (hEd : E.all isDigit = true)
    (hS : S.length = 4) (hSd : S.all isDigit = true)
    (hD1 : 1 ≤ D.length) (hD15 : D.length ≤ 15) (hDd : D.all isDigit = true)
    (hm : m.map tolower ∈ [bytes "x", bytes "ext", bytes "ext.", bytes "extention"])
    (hsp : sp = [] ∨ sp = [32]) :
    validatePhoneNumber (A ++ [45] ++ E ++ [45] ++ S ++ [32] ++ m ++ sp ++ D)
      = .accepted (A ++ [32] ++ E ++ [32] ++ S ++ [120] ++ D) := by
  obtain ⟨e1, e2, e3, rfl⟩ := length_three hE
  obtain ⟨s1, s2, s3, s4, rfl⟩ := length_four hS
  simp only [List.all_cons, List.all_nil, Bool.and_true, Bool.and_eq_true] at hEd hSd
  obtain ⟨he1, he2, he3⟩ := hEd
  obtain ⟨hs1, hs2, hs3, hs4⟩ := hSd
  have hpre : ∀ c ∈ A ++ [45, e1, e2, e3, 45, s1, s2, s3, s4, 32], isDialChar c = true := by
    obtain ⟨a1, a2, a3, rfl, ha1, ha2, ha3⟩ := areaCode_cases hA
    have h45 : isDialChar 45 = true := by decide
    have h32 : isDialChar 32 = true := by decide
    simp [isDialChar_of_isDigit, isDigit_of_area ha1, ha2, ha3, he1, he2, he3, hs1, hs2, hs3,
      hs4, h45, h32]
  have hin : A ++ [45] ++ [e1, e2, e3] ++ [45] ++ [s1, s2, s3, s4] ++ [32] ++ m ++ sp ++ D
      = A ++ [45, e1, e2, e3, 45, s1, s2, s3, s4, 32] ++ m ++ sp ++ D := by
    simp
  have hout : A ++ [32] ++ [e1, e2, e3] ++ [32] ++ [s1, s2, s3, s4] ++ [120] ++ D
      = A ++ [32, e1, e2, e3, 32, s1, s2, s3, s4] ++ 120 :: D := by
    simp
  rw [hin, hout]
  have hsan : (A ++ [45, e1, e2, e3, 45, s1, s2, s3, s4, 32] ++ m ++ sp ++ D).any
      (fun c => !isSanityChar c) = false := by
    rw [List.any_eq_false]
    intro c hc
    have : isSanityChar c = true := by
      rcases List.mem_append.mp hc with hc | hc
      · rcases List.mem_append.mp hc with hc | hc
        · rcases List.mem_append.mp hc with hc | hc
          · exact (isDialChar_facts (hpre c hc)).1
          · exact isSanityChar_of_tolower (marker_chars hm _ (List.mem_map_of_mem tolower hc))
        · rcases hsp with rfl | rfl
          · simp at hc
          · simp only [List.mem_singleton] at hc
            subst hc
            decide
      · exact (isPlain_facts (isPlain_of_isDigit (List.all_eq_true.mp hDd c hc))).1
    simp [this]
  have hex := extractExtention_marker _ m sp D hpre hm hsp hDd hD1 hD15
  unfold validatePhoneNumber
  simp only [hsan, hex, Bool.false_eq_true, if_false]
  exact parseNumber_hyphenated A (120 :: D) e1 e2 e3 s1 s2 s3 s4 hA he1 he2 he3 hs1 hs2 hs3 hs4

/-- Witness for C10, at the input `972-964-4333 ext. 12` of the spec. -/
theorem validatePhoneNumber_extension_marker_witness :
    validatePhoneNumber (bytes "972-964-4333 ext. 12") = .accepted (bytes "972 964 4333x12") :=
  validatePhoneNumber_extension_marker (bytes "972") (bytes "964") (bytes "4333") (bytes "12")
    (bytes "ext.") [32] (by decide) (by decide) (by decide) (by decide) (by decide) (by decide)
    (by decide) (by decide) (by decide) (by decide)

/-! ## The name validator -/

theorem validateChars_eq_false_iff (name : List Nat) :
    validateChars name = false ↔
      ∃ c ∈ name, c < 0x20 ∨ (0x7E < c ∧ c < 0xA1) ∨ (0x205E < c ∧ c < 0x206A)
        ∨ (0x20F0 < c ∧ c < 0x2100) ∨ (0xDFFFF < c ∧ c < 0xE1001) := by
  induction name with
  | nil => simp [validateChars]
  | cons c cs ih =>
    simp only [validateChars, List.mem_cons, exists_eq_or_imp]
    rw [← ih]
    split_ifs <;> simp <;> omega

/-- Claim C4, as amended: `validateName` returns false exactly when the sequence is empty or
holds a scalar value `c` with `c < 0x20`, `0x7E < c < 0xA1`, `0x205E < c < 0x206A`,
`0x20F0 < c < 0x2100` or `0xDFFFF < c < 0xE1001`; every other sequence is accepted. -/
theorem validateName_eq_false_iff (name : List Nat) :
    validateName name = false ↔
      name = [] ∨ ∃ c ∈ name, c < 0x20 ∨ (0x7E < c ∧ c < 0xA1) ∨ (0x205E < c ∧ c < 0x206A)
        ∨ (0x20F0 < c ∧ c < 0x2100) ∨ (0xDFFFF < c ∧ c < 0xE1001) := by
  unfold validateName
  cases name with
  | nil => simp
  | cons c cs =>
    simp only [List.isEmpty_cons, Bool.false_eq_true, if_false, reduceCtorEq, false_or]
    exact validateChars_eq_false_iff (c :: cs)

/-- Counterexample to C4 as stated: the name made of U+007F alone is rejected although it is not
empty and holds no scalar value of the listed ranges, and the name made of U+2070 alone is
accepted although `0x205E < 0x2070 < 0x2082`. -/
theorem validateName_spec_ranges_differ :
    (validateName [0x7F] = false ∧ isBannedBySpec 0x7F = false)
      ∧ (validateName [0x2070] = true ∧ isBannedBySpec 0x2070 = true) := by
  decide

/-! ## The name normalizer -/

theorem hasSpaceRun_cons_cons (a b : Nat) (r : List Nat) :
    hasSpaceRun (a :: b :: r) = ((a == 32 && b == 32) || hasSpaceRun (b :: r)) := rfl

theorem hasSpaceRun_tail {a : Nat} {r : List Nat} (h : hasSpaceRun (a :: r) = false) :
    hasSpaceRun r = false := by
  cases r with
  | nil => rfl
  | cons b r =>
    rw [hasSpaceRun_cons_cons, Bool.or_eq_false_iff] at h
    exact h.2

theorem head_of_noSpaceRun {r : List Nat} (h : hasSpaceRun (32 :: r) = false) :
    r.headD 0 ≠ 32 := by
  cases r with
  | nil => simp
  | cons b r =>
    rw [hasSpaceRun_cons_cons, Bool.or_eq_false_iff] at h
    simpa using h.1

theorem uniqueFrom_noSpaceRun (kept : Nat) (s : List Nat) :
    hasSpaceRun (kept :: uniqueFrom kept s) = false := by
  induction s generalizing kept with
  | nil => rfl
  | cons c cs ih =>
    by_cases h : kept = c ∧ kept = 32
    · rw [uniqueFrom, if_pos h]
      exact ih kept
    · rw [uniqueFrom, if_neg h]
      simp only [hasSpaceRun_cons_cons, ih c, Bool.or_false]
      simp only [Bool.and_eq_false_iff, beq_eq_false_iff_ne, ne_eq]
      by_cases hk : kept = 32
      · right
        intro hc
        exact h ⟨hk.trans hc.symm, hk⟩
      · left; exact hk

theorem unique_noSpaceRun (s : List Nat) : hasSpaceRun (unique s) = false := by
  cases s with
  | nil => rfl
  | cons c cs => exact uniqueFrom_noSpaceRun c cs

theorem eraseLeadingSpace_spec {s : List Nat} (h : hasSpaceRun s = false) :
    hasSpaceRun (eraseLeadingSpace s) = false ∧ (eraseLeadingSpace s).headD 0 ≠ 32 := by
  unfold eraseLeadingSpace
  split_ifs with h32
  · cases s with
    | nil => simp at h32
    | cons a r =>
      simp only [List.headD_cons] at h32
      subst h32
      exact ⟨hasSpaceRun_tail h, head_of_noSpaceRun h⟩
  · exact ⟨h, h32⟩

theorem dropLast_noSpaceRun (s : List Nat) (h : hasSpaceRun s = false) :
    hasSpaceRun s.dropLast = false := by
  induction s with
  | nil => rfl
  | cons a r ih =>
    cases r with
    | nil => rfl
    | cons b r =>
      cases r with
      | nil => rfl
      | cons c r =>
        rw [hasSpaceRun_cons_cons, Bool.or_eq_false_iff] at h
        have := ih h.2
        simp only [List.dropLast_cons₂] at this ⊢
        rw [hasSpaceRun_cons_cons, Bool.or_eq_false_iff]
        exact ⟨h.1, this⟩

theorem dropLast_getLast_ne (s : List Nat) (h : hasSpaceRun s = false)
    (hl : s.getLast? = some 32) : s.dropLast.getLast? ≠ some 32 := by
  induction s with
  | nil => simp
  | cons a r ih =>
    cases r with
    | nil => simp
    | cons b r =>
      cases r with
      | nil =>
        simp only [List.getLast?_cons_cons, List.getLast?_singleton, Option.some.injEq] at hl
        subst hl
        rw [hasSpaceRun_cons_cons, Bool.or_eq_false_iff] at h
        simpa using h.1
      | cons c r =>
        rw [List.getLast?_cons_cons] at hl
        have := ih (hasSpaceRun_tail h) hl
        simpa [List.dropLast_cons₂, List.getLast?_cons_cons] using this

theorem dropLast_headD_ne (s : List Nat) (h : s.headD 0 ≠ 32) : s.dropLast.headD 0 ≠ 32 := by
  cases s with
  | nil => simp
  | cons a r =>
    cases r with
    | nil => simp
    | cons b r => simp at h ⊢; exact h

theorem eraseTrailingSpace_spec {s : List Nat} (h : hasSpaceRun s = false)
    (hh : s.headD 0 ≠ 32) :
    hasSpaceRun (eraseTrailingSpace s) = false ∧ (eraseTrailingSpace s).headD 0 ≠ 32
      ∧ (eraseTrailingSpace s).getLast? ≠ some 32 := by
  unfold eraseTrailingSpace
  split_ifs with hl
  · exact ⟨dropLast_noSpaceRun s h, dropLast_headD_ne s hh, dropLast_getLast_ne s h hl.2⟩
  · refine ⟨h, hh, ?_⟩
    intro hlast
    apply hl
    refine ⟨?_, hlast⟩
    cases s with
    | nil => simp at hlast
    | cons a r => simp

theorem foldSpaces_spec (v : List Nat) :
    hasSpaceRun (foldSpaces v) = false ∧ (foldSpaces v).headD 0 ≠ 32
      ∧ (foldSpaces v).getLast? ≠ some 32 := by
  unfold foldSpaces
  have h1 := eraseLeadingSpace_spec (unique_noSpaceRun (replaceSpaceChars v))
  exact eraseTrailingSpace_spec h1.1 h1.2

/-- Claim C6: whatever the decoder and the normalization to form C are, a sequence returned by
`normalizeToUTF32` holds no two adjacent spaces, does not begin with a space and does not end
with a space; this holds in particular for the names that `validateName` accepts. -/
theorem normalizeToUTF32_spaces (from_bytes : List Nat → Option (List Nat))
    (nfc : List Nat → List Nat) (x name : List Nat)
    (h : normalizeToUTF32 from_bytes nfc x = some name) :
    hasSpaceRun name = false ∧ name.head? ≠ some 32 ∧ name.getLast? ≠ some 32 := by
  unfold normalizeToUTF32 at h
  split at h
  · simp at h
  · rename_i utf32 _
    simp only [Option.some.injEq] at h
    subst h
    obtain ⟨h1, h2, h3⟩ := foldSpaces_spec (nfc utf32)
    refine ⟨h1, ?_, h3⟩
    intro hh
    apply h2
    cases hf : foldSpaces (nfc utf32) with
    | nil => simp [hf] at hh
    | cons a r =>
      rw [hf] at hh
      simpa using hh

/-- Witness for C6, at the ASCII text `  Ann   Lee ` (decoding and form C are the identity on
it). -/
theorem normalizeToUTF32_spaces_witness :
    hasSpaceRun (bytes "Ann Lee") = false ∧ (bytes "Ann Lee").head? ≠ some 32
      ∧ (bytes "Ann Lee").getLast? ≠ some 32 :=
  normalizeToUTF32_spaces some id (bytes "  Ann   Lee ") (bytes "Ann Lee") (by decide)

/-! ## Idempotence of the name normalizer -/

theorem mem_uniqueFrom {kept c : Nat} {s : List Nat} (h : c ∈ uniqueFrom kept s) : c ∈ s := by
  induction s generalizing kept with
  | nil => simp [uniqueFrom] at h
  | cons d ds ih =>
    by_cases hk : kept = d ∧ kept = 32
    · rw [uniqueFrom, if_pos hk] at h
      exact List.mem_cons_of_mem d (ih h)
    · rw [uniqueFrom, if_neg hk] at h
      rcases List.mem_cons.mp h with rfl | h
      · exact List.mem_cons_self _ _
      · exact List.mem_cons_of_mem d (ih h)

theorem mem_unique {c : Nat} {s : List Nat} (h : c ∈ unique s) : c ∈ s := by
  cases s with
  | nil => simp [unique] at h
  | cons d ds =>
    rcases List.mem_cons.mp h with rfl | h
    · exact List.mem_cons_self _ _
    · exact List.mem_cons_of_mem d (mem_uniqueFrom h)

theorem mem_foldSpaces {c : Nat} {v : List Nat} (h : c ∈ foldSpaces v) :
    spaceChars.contains c = false := by
  have h1 : c ∈ eraseLeadingSpace (unique (replaceSpaceChars v)) := by
    unfold foldSpaces eraseTrailingSpace at h
    split_ifs at h
    · exact List.mem_of_mem_dropLast h
    · exact h
  have h2 : c ∈ unique (replaceSpaceChars v) := by
    unfold eraseLeadingSpace at h1
    split_ifs at h1
    · exact List.mem_of_mem_drop h1
    · exact h1
  obtain ⟨d, -, rfl⟩ := List.mem_map.mp (mem_unique h2)
  by_cases hd : spaceChars.contains d = true
  · rw [if_pos hd]
    decide
  · rw [if_neg hd]
    exact Bool.eq_false_iff.mpr hd

theorem replaceSpaceChars_fixed {r : List Nat} (h : ∀ c ∈ r, spaceChars.contains c = false) :
    replaceSpaceChars r = r := by
  unfold replaceSpaceChars
  conv => rhs; rw [← List.map_id r]
  apply List.map_congr_left
  intro c hc
  have hn : ¬ spaceChars.contains c = true := by
    rw [h c hc]
    exact Bool.false_ne_true
  rw [if_neg hn]
  rfl

theorem uniqueFrom_fixed (kept : Nat) (s : List Nat) (h : hasSpaceRun (kept :: s) = false) :
    uniqueFrom kept s = s := by
  induction s generalizing kept with
  | nil => rfl
  | cons c cs ih =>
    rw [hasSpaceRun_cons_cons, Bool.or_eq_false_iff] at h
    have hk : ¬ (kept = c ∧ kept = 32) := by
      rintro ⟨rfl, rfl⟩
      simp at h
    rw [uniqueFrom, if_neg hk, ih c h.2]

theorem unique_fixed {s : List Nat} (h : hasSpaceRun s = false) : unique s = s := by
  cases s with
  | nil => rfl
  | cons c cs => rw [unique, uniqueFrom_fixed c cs h]

theorem foldSpaces_fixed {r : List Nat} (hc : ∀ c ∈ r, spaceChars.contains c = false)
    (hrun : hasSpaceRun r = false) (hhead : r.headD 0 ≠ 32) (hlast : r.getLast? ≠ some 32) :
    foldSpaces r = r := by
  unfold foldSpaces
  rw [replaceSpaceChars_fixed hc, unique_fixed hrun]
  have h1 : eraseLeadingSpace r = r := by
    unfold eraseLeadingSpace
    rw [if_neg hhead]
  rw [h1]
  unfold eraseTrailingSpace
  rw [if_neg (fun h => hlast h.2)]

/-- The steps after the normalization to form C are idempotent. -/
theorem foldSpaces_idempotent (v : List Nat) : foldSpaces (foldSpaces v) = foldSpaces v := by
  obtain ⟨h1, h2, h3⟩ := foldSpaces_spec v
  exact foldSpaces_fixed (fun c hc => mem_foldSpaces hc) h1 h2 h3

theorem nfc_replaceSpaceChars (nfc : List Nat → List Nat)
    (hmap : ∀ a c b, spaceChars.contains c = true → nfc (a ++ c :: b) = a ++ c :: b →
      nfc (a ++ 32 :: b) = a ++ 32 :: b)
    (a b : List Nat) (h : nfc (a ++ b) = a ++ b) :
    nfc (a ++ replaceSpaceChars b) = a ++ replaceSpaceChars b := by
  induction b generalizing a with
  | nil => simpa [replaceSpaceChars] using h
  | cons c cs ih =>
    have hstep : nfc (a ++ (if spaceChars.contains c = true then 32 else c) :: cs)
        = a ++ (if spaceChars.contains c = true then 32 else c) :: cs := by
      split_ifs with hc
      · exact hmap a c cs hc h
      · exact h
    have := ih (a ++ [if spaceChars.contains c = true then 32 else c])
      (by simpa [List.append_assoc] using hstep)
    simpa [replaceSpaceChars, List.append_assoc] using this

theorem nfc_uniqueFrom (nfc : List Nat → List Nat)
    (hdup : ∀ a b, nfc (a ++ 32 :: 32 :: b) = a ++ 32 :: 32 :: b →
      nfc (a ++ 32 :: b) = a ++ 32 :: b)
    (a : List Nat) (kept : Nat) (s : List Nat) (h : nfc (a ++ kept :: s) = a ++ kept :: s) :
    nfc (a ++ kept :: uniqueFrom kept s) = a ++ kept :: uniqueFrom kept s := by
  induction s generalizing a kept with
  | nil => exact h
  | cons c cs ih =>
    by_cases hk : kept = c ∧ kept = 32
    · rw [uniqueFrom, if_pos hk]
      obtain ⟨rfl, rfl⟩ := hk
      exact ih a 32 (hdup a cs h)
    · rw [uniqueFrom, if_neg hk]
      have := ih (a ++ [kept]) c (by simpa [List.append_assoc] using h)
      simpa [List.append_assoc] using this

theorem nfc_foldSpaces (nfc : List Nat → List Nat)
    (hmap : ∀ a c b, spaceChars.contains c = true → nfc (a ++ c :: b) = a ++ c :: b →
      nfc (a ++ 32 :: b) = a ++ 32 :: b)
    (hdup : ∀ a b, nfc (a ++ 32 :: 32 :: b) = a ++ 32 :: 32 :: b →
      nfc (a ++ 32 :: b) = a ++ 32 :: b)
    (hlead : ∀ b, nfc (32 :: b) = 32 :: b → nfc b = b)
    (htrail : ∀ a, nfc (a ++ [32]) = a ++ [32] → nfc a = a)
    (v : List Nat) (h : nfc v = v) : nfc (foldSpaces v) = foldSpaces v := by
  have h1 : nfc (replaceSpaceChars v) = replaceSpaceChars v := by
    simpa using nfc_replaceSpaceChars nfc hmap [] v (by simpa using h)
  have h2 : nfc (unique (replaceSpaceChars v)) = unique (replaceSpaceChars v) := by
    cases hs : replaceSpaceChars v with
    | nil =>
      rw [hs] at h1
      exact h1
    | cons c cs =>
      rw [hs] at h1
      simpa [unique] using nfc_uniqueFrom nfc hdup [] c cs (by simpa using h1)
  have h3 : nfc (eraseLeadingSpace (unique (replaceSpaceChars v)))
      = eraseLeadingSpace (unique (replaceSpaceChars v)) := by
    unfold eraseLeadingSpace
    split_ifs with h32
    · cases hs : unique (replaceSpaceChars v) with
      | nil =>
        rw [hs] at h2
        simpa using h2
      | cons c cs =>
        rw [hs] at h2 h32
        simp only [List.headD_cons] at h32
        subst h32
        simpa using hlead cs h2
    · exact h2
  unfold foldSpaces eraseTrailingSpace
  split_ifs with hl
  · apply htrail
    have hne : eraseLeadingSpace (unique (replaceSpaceChars v)) ≠ [] := by
      intro hnil
      simp [hnil] at hl
    have hlast : (eraseLeadingSpace (unique (replaceSpaceChars v))).getLast hne = 32 := by
      have := List.getLast?_eq_getLast _ hne
      rw [hl.2] at this
      exact (Option.some.inj this).symm
    have hsplit := List.dropLast_append_getLast hne
    rw [hlast] at hsplit
    rw [hsplit]
    exact h3
  · exact h3

/-- Claim C5: the normalizer is idempotent.  Form C is taken as an idempotent function that
leaves the space alone: text in form C stays in form C when a space-equivalent code point is
replaced by U+0020 and when a U+0020 next to another U+0020, at the start or at the end is
removed.  Then normalizing any re-encoding `y` of a result `name` returns `name` again. -/
theorem normalizeToUTF32_idempotent (from_bytes : List Nat → Option (List Nat))
    (nfc : List Nat → List Nat)
    (hidem : ∀ v, nfc (nfc v) = nfc v)
    (hmap : ∀ a c b, spaceChars.contains c = true → nfc (a ++ c :: b) = a ++ c :: b →
      nfc (a ++ 32 :: b) = a ++ 32 :: b)
    (hdup : ∀ a b, nfc (a ++ 32 :: 32 :: b) = a ++ 32 :: 32 :: b →
      nfc (a ++ 32 :: b) = a ++ 32 :: b)
    (hlead : ∀ b, nfc (32 :: b) = 32 :: b → nfc b = b)
    (htrail : ∀ a, nfc (a ++ [32]) = a ++ [32] → nfc a = a)
    (x y name : List Nat)
    (hx : normalizeToUTF32 from_bytes nfc x = some name)
    (hy : from_bytes y = some name) :
    normalizeToUTF32 from_bytes nfc y = some name := by
  unfold normalizeToUTF32 at hx
  split at hx
  · simp at hx
  · rename_i utf32 _
    simp only [Option.some.injEq] at hx
    subst hx
    have hn := nfc_foldSpaces nfc hmap hdup hlead htrail (nfc utf32) (hidem utf32)
    unfold normalizeToUTF32
    rw [hy]
    simp only [hn, foldSpaces_idempotent]

/-- Witness for C5, at the ASCII text ` Ann   Lee ` and its normal form `Ann Lee`, on which
decoding and form C are the identity. -/
theorem normalizeToUTF32_idempotent_witness :
    normalizeToUTF32 some id (bytes "Ann Lee") = some (bytes "Ann Lee") :=
  normalizeToUTF32_idempotent some id (fun _ => rfl) (fun _ _ _ _ _ => rfl)
    (fun _ _ _ => rfl) (fun _ _ => rfl) (fun _ _ => rfl)
    (bytes " Ann   Lee ") (bytes "Ann Lee") (bytes "Ann Lee") (by decide) rfl

/-! ## Parenthesized area codes -/

theorem extractExtention_noLetters (s : List Nat) (h : s.any isLetterOrComma = false) :
    extractExtention s = some (s, []) := by
  simp [extractExtention, h]

theorem smatchSize_zero_not_gt (found : Bool) : ¬ smatchSize found 0 > 1 := by
  unfold smatchSize
  split <;> omega

theorem hasParenGroup_cons_group (d1 d2 d3 : Nat) (r : List Nat) (h1 : isDigit d1 = true)
    (h2 : isDigit d2 = true) (h3 : isDigit d3 = true) :
    hasParenGroup (40 :: d1 :: d2 :: d3 :: 41 :: r) = true := by
  simp [hasParenGroup, h1, h2, h3]

/-- Claim C11: for a listed area code `A`, three exchange digits `E` and four subscriber digits
`S`, the input `(A) E-S` is accepted and its result is `A E S` with single spaces. -/
theorem validatePhoneNumber_parenthesized (A E S : List Nat)
    (hA : A ∈ areaCodes.map bytes)
    (hE : E.length = 3) (hEd : E.all isDigit = true)
    (hS : S.length = 4) (hSd : S.all isDigit = true) :
    validatePhoneNumber ([40] ++ A ++ [41, 32] ++ E ++ [45] ++ S)
      = .accepted (A ++ [32] ++ E ++ [32] ++ S) := by
  obtain ⟨e1, e2, e3, rfl⟩ := length_three hE
  obtain ⟨s1, s2, s3, s4, rfl⟩ := length_four hS
  simp only [List.all_cons, List.all_nil, Bool.and_true, Bool.and_eq_true] at hEd hSd
  obtain ⟨he1, he2, he3⟩ := hEd
  obtain ⟨hs1, hs2, hs3, hs4⟩ := hSd
  have harea := hasAreaCode_append hA [32, e1, e2, e3, 32, s1, s2, s3, s4]
  obtain ⟨a1, a2, a3, rfl, ha1, ha2, ha3⟩ := areaCode_cases hA
  have ha1' := isDigit_of_area ha1
  have f1 := isDigit_facts ha1'
  have f2 := isDigit_facts ha2
  have f3 := isDigit_facts ha3
  have f4 := isDigit_facts he1
  have f5 := isDigit_facts he2
  have f6 := isDigit_facts he3
  have f7 := isDigit_facts hs1
  have f8 := isDigit_facts hs2
  have f9 := isDigit_facts hs3
  have f10 := isDigit_facts hs4
  have g1 := isPlain_facts (isPlain_of_isDigit ha1')
  have g2 := isPlain_facts (isPlain_of_isDigit ha2)
  have g3 := isPlain_facts (isPlain_of_isDigit ha3)
  have g4 := isPlain_facts (isPlain_of_isDigit he1)
  have g5 := isPlain_facts (isPlain_of_isDigit he2)
  have g6 := isPlain_facts (isPlain_of_isDigit he3)
  have g7 := isPlain_facts (isPlain_of_isDigit hs1)
  have g8 := isPlain_facts (isPlain_of_isDigit hs2)
  have g9 := isPlain_facts (isPlain_of_isDigit hs3)
  have g10 := isPlain_facts (isPlain_of_isDigit hs4)
  have hin : [40] ++ [a1, a2, a3] ++ [41, 32] ++ [e1, e2, e3] ++ [45] ++ [s1, s2, s3, s4]
      = [40, a1, a2, a3, 41, 32, e1, e2, e3, 45, s1, s2, s3, s4] := by simp
  have hout : [a1, a2, a3] ++ [32] ++ [e1, e2, e3] ++ [32] ++ [s1, s2, s3, s4]
      = [a1, a2, a3, 32, e1, e2, e3, 32, s1, s2, s3, s4] := by simp
  rw [hin, hout]
  have hsan : [40, a1, a2, a3, 41, 32, e1, e2, e3, 45, s1, s2, s3, s4].any
      (fun c => !isSanityChar c) = false := by
    have c40 : isSanityChar 40 = true := by decide
    have c41 : isSanityChar 41 = true := by decide
    have c32 : isSanityChar 32 = true := by decide
    have c45 : isSanityChar 45 = true := by decide
    simp [g1.1, g2.1, g3.1, g4.1, g5.1, g6.1, g7.1, g8.1, g9.1, g10.1, c40, c41, c32, c45]
  have hlet : [40, a1, a2, a3, 41, 32, e1, e2, e3, 45, s1, s2, s3, s4].any isLetterOrComma
      = false := by
    have c40 : isLetterOrComma 40 = false := by decide
    have c41 : isLetterOrComma 41 = false := by decide
    have c32 : isLetterOrComma 32 = false := by decide
    have c45 : isLetterOrComma 45 = false := by decide
    simp [g1.2.1, g2.2.1, g3.2.1, g4.2.1, g5.2.1, g6.2.1, g7.2.1, g8.2.1, g9.2.1, g10.2.1,
      c40, c41, c32, c45]
  have hpop : popTrailingSpace [40, a1, a2, a3, 41, 32, e1, e2, e3, 45, s1, s2, s3, s4]
      = some [40, a1, a2, a3, 41, 32, e1, e2, e3, 45, s1, s2, s3, s4] := by
    simp [popTrailingSpace, f10.2.2.2.1]
  have hpar : [40, a1, a2, a3, 41, 32, e1, e2, e3, 45, s1, s2, s3, s4].any isParen = true := by
    have c40 : isParen 40 = true := by decide
    simp [c40]
  have hgroup := hasParenGroup_cons_group a1 a2 a3 [32, e1, e2, e3, 45, s1, s2, s3, s4]
    ha1' ha2 ha3
  have hsp : isNumChar 32 = false := by decide
  have hhy : isNumChar 45 = false := by decide
  have h40 : isNumChar 40 = false := by decide
  have h41 : isNumChar 41 = false := by decide
  have hss : isSpace 32 = true := by decide
  have hsq : squeezeNumber [40, a1, a2, a3, 41, 32, e1, e2, e3, 45, s1, s2, s3, s4]
      = [a1, a2, a3, 32, e1, e2, e3, 32, s1, s2, s3, s4] := by
    simp [squeezeNumber, squeeze, squeezeFrom, collapsePairs, f1.1, f2.1, f3.1, f4.1, f5.1,
      f6.1, f7.1, f8.1, f9.1, f10.1, hsp, hhy, h40, h41, hss, f1.2.1, f2.2.1, f3.2.1, f4.2.1,
      f5.2.1, f6.2.1, f7.2.1, f8.2.1, f9.2.1, f10.2.1]
  have hm : matchNANP [a1, a2, a3, 32, e1, e2, e3, 32, s1, s2, s3, s4] = true := by
    simp [matchNANP, ha1.1, ha1.2, ha2, ha3, he1, he2, he3, hs1, hs2, hs3, hs4]
  have hb : bytes "+1 " = [43, 49, 32] := by decide
  simp only [List.cons_append, List.nil_append] at harea
  unfold validatePhoneNumber
  simp only [hsan, extractExtention_noLetters _ hlet, Bool.false_eq_true, if_false]
  unfold parseNumber
  simp only [hpop, smatchSize_zero_not_gt, if_false, hpar, hgroup, hsq]
  simp [parseBranches, parseNANP, hb, f1.2.2.2.2, hm, harea]

/-- Witness for C11, at the input `(972) 964-4333` of the spec. -/
theorem validatePhoneNumber_parenthesized_witness :
    validatePhoneNumber (bytes "(972) 964-4333") = .accepted (bytes "972 964 4333") :=
  validatePhoneNumber_parenthesized (bytes "972") (bytes "964") (bytes "4333")
    (by decide) (by decide) (by decide) (by decide) (by decide)

/-! ## International numbers written in groups -/

theorem squeezeFrom_numChar_cons (b : Bool) {c : Nat} (cs : List Nat)
    (h : isNumChar c = true) : squeezeFrom b (c :: cs) = c :: squeezeFrom false cs := by
  simp only [squeezeFrom, h, if_true]

theorem squeezeFrom_digits_append (b : Bool) (g s : List Nat) (hne : g ≠ [])
    (hg : g.all isDigit = true) : squeezeFrom b (g ++ s) = g ++ squeezeFrom false s := by
  induction g generalizing b with
  | nil => exact absurd rfl hne
  | cons d g ih =>
    simp only [List.all_cons, Bool.and_eq_true] at hg
    rw [List.cons_append, squeezeFrom_numChar_cons b _ (isDigit_facts hg.1).1]
    cases g with
    | nil => rfl
    | cons d2 g2 =>
      rw [ih false (by simp) hg.2]
      rfl

theorem collapsePairs_cons_of_not_space {a : Nat} (t : List Nat) (h : isSpace a = false) :
    collapsePairs (a :: t) = a :: collapsePairs t := by
  cases t with
  | nil => rfl
  | cons b r => simp only [collapsePairs, h, Bool.false_and, Bool.false_eq_true, if_false]

theorem collapsePairs_cons_cons_of_not_space (a : Nat) {b : Nat} (t : List Nat)
    (h : isSpace b = false) : collapsePairs (a :: b :: t) = a :: collapsePairs (b :: t) := by
  simp only [collapsePairs, h, Bool.and_false, Bool.false_eq_true, if_false]

theorem collapsePairs_digits_append (g s : List Nat) (hg : g.all isDigit = true) :
    collapsePairs (g ++ s) = g ++ collapsePairs s := by
  induction g with
  | nil => rfl
  | cons d g ih =>
    simp only [List.all_cons, Bool.and_eq_true] at hg
    rw [List.cons_append, collapsePairs_cons_of_not_space _ (isDigit_facts hg.1).2.1, ih hg.2,
      List.cons_append]

theorem joinGroups_head {groups : List (List Nat)} (hne : groups ≠ [])
    (hg : ∀ g ∈ groups, g ≠ [] ∧ g.all isDigit = true) :
    ∃ d t, joinGroups groups = d :: t ∧ isDigit d = true := by
  match groups, hne, hg with
  | [g], _, hg =>
    obtain ⟨h1, h2⟩ := hg g (by simp)
    match g, h1, h2 with
    | d :: t, _, h2 =>
      simp only [List.all_cons, Bool.and_eq_true] at h2
      exact ⟨d, t, rfl, h2.1⟩
  | g :: h :: r, _, hg =>
    obtain ⟨h1, h2⟩ := hg g (by simp)
    match g, h1, h2 with
    | d :: t, _, h2 =>
      simp only [List.all_cons, Bool.and_eq_true] at h2
      exact ⟨d, t ++ 32 :: joinGroups (h :: r), rfl, h2.1⟩

theorem joinGroups_facts (groups : List (List Nat))
    (hg : ∀ g ∈ groups, g ≠ [] ∧ g.all isDigit = true) :
    (∀ c ∈ joinGroups groups, isPlain c = true)
      ∧ removeSpaces (joinGroups groups) = groups.flatten
      ∧ squeezeFrom false (joinGroups groups) = joinGroups groups
      ∧ collapsePairs (joinGroups groups) = joinGroups groups
      ∧ (joinGroups groups).getLast? ≠ some 32 := by
  induction groups with
  | nil => simp [joinGroups, removeSpaces, squeezeFrom, collapsePairs]
  | cons g gs ih =>
    obtain ⟨hgne, hgd⟩ := hg g (List.mem_cons_self g gs)
    have hgs : ∀ h ∈ gs, h ≠ [] ∧ h.all isDigit = true :=
      fun h hh => hg h (List.mem_cons_of_mem g hh)
    have hgp : ∀ c ∈ g, isPlain c = true :=
      fun c hc => isPlain_of_isDigit (List.all_eq_true.mp hgd c hc)
    cases gs with
    | nil =>
      refine ⟨hgp, ?_, ?_, ?_, ?_⟩
      · simpa [joinGroups] using removeSpaces_digits hgd
      · exact squeezeFrom_numChars false g
          (fun c hc => (isDigit_facts (List.all_eq_true.mp hgd c hc)).1)
      · exact collapsePairs_noSpace g
          (fun c hc => (isDigit_facts (List.all_eq_true.mp hgd c hc)).2.1)
      · intro hl
        have hmem : (32 : Nat) ∈ g := List.mem_of_getLast?_eq_some hl
        have := List.all_eq_true.mp hgd 32 hmem
        simp [isDigit] at this
    | cons h r =>
      obtain ⟨ih1, ih2, ih3, ih4, ih5⟩ := ih hgs
      obtain ⟨d, t, hdt, hd⟩ := joinGroups_head (by simp) hgs
      have hjg : joinGroups (g :: h :: r) = g ++ 32 :: joinGroups (h :: r) := rfl
      rw [hjg]
      refine ⟨?_, ?_, ?_, ?_, ?_⟩
      · intro c hc
        rcases List.mem_append.mp hc with hc | hc
        · exact hgp c hc
        · rcases List.mem_cons.mp hc with rfl | hc
          · decide
          · exact ih1 c hc
      · have h32 : isSpace 32 = true := by decide
        unfold removeSpaces at ih2 ⊢
        rw [List.filter_append, List.filter_cons_of_neg (by simp [h32]), ih2,
          List.flatten_cons]
        congr 1
        exact removeSpaces_digits hgd
      · have h32 : isNumChar 32 = false := by decide
        rw [squeezeFrom_digits_append false g _ hgne hgd]
        congr 1
        rw [squeezeFrom, if_neg (by simp [h32]), if_neg (by simp), hdt,
          squeezeFrom_numChar_cons true t (isDigit_facts hd).1,
          ← squeezeFrom_numChar_cons false t (isDigit_facts hd).1, ← hdt, ih3]
      · rw [collapsePairs_digits_append g _ hgd, hdt,
          collapsePairs_cons_cons_of_not_space 32 t (isDigit_facts hd).2.1, ← hdt, ih4]
      · rw [List.getLast?_append, hdt, List.getLast?_cons_cons, ← hdt]
        intro hl
        cases hlast : (joinGroups (h :: r)).getLast? with
        | none =>
          rw [hdt] at hlast
          simp at hlast
        | some x =>
          rw [hlast] at hl
          simp only [Option.or_some, Option.some.injEq] at hl
          exact ih5 (hl ▸ hlast)

/-- Claim C12: a `+` followed by groups of digits with single spaces between them, not beginning
with `+1 `, whose 7 to 15 digits begin with a listed country code and not with `001`, is
accepted, and the result is the `+` followed by the digits without the spaces. -/
theorem validatePhoneNumber_international_groups (groups : List (List Nat))
    (hg : ∀ g ∈ groups, g ≠ [] ∧ g.all isDigit = true)
    (hplus1 : (43 :: joinGroups groups).take 3 ≠ bytes "+1 ")
    (h7 : 7 ≤ groups.flatten.length) (h15 : groups.flatten.length ≤ 15)
    (hcc : ∃ code ∈ countryCodes, (bytes code).isPrefixOf groups.flatten = true)
    (h001 : (bytes "001").isPrefixOf groups.flatten = false) :
    validatePhoneNumber (43 :: joinGroups groups) = .accepted (43 :: groups.flatten) := by
  obtain ⟨hp, hrm, hsq, hcp, hlast⟩ := joinGroups_facts groups hg
  have hdig : groups.flatten.all isDigit = true := by
    rw [List.all_eq_true]
    intro c hc
    obtain ⟨g, hgm, hcg⟩ := List.mem_flatten.mp hc
    exact List.all_eq_true.mp (hg g hgm).2 c hcg
  have hplain : (43 :: joinGroups groups).all isPlain = true := by
    rw [List.all_eq_true]
    intro c hc
    rcases List.mem_cons.mp hc with rfl | hc
    · decide
    · exact hp c hc
  have hval := validatePhoneNumber_canonical (43 :: joinGroups groups) [] hplain (Or.inl rfl)
  rw [List.append_nil] at hval
  rw [hval]
  have hpop : popTrailingSpace (43 :: joinGroups groups) = some (43 :: joinGroups groups) := by
    unfold popTrailingSpace
    cases hj : joinGroups groups with
    | nil => simp
    | cons d t =>
      rw [hj] at hlast
      rw [List.getLast?_cons_cons]
      cases hl : (d :: t).getLast? with
      | none => simp at hl
      | some x =>
        have hx : x ≠ 32 := fun h32 => hlast (h32 ▸ hl)
        simp [hx]
  have h43n : isNumChar 43 = true := by decide
  have h43s : isSpace 43 = false := by decide
  have hsqn : squeezeNumber (43 :: joinGroups groups) = 43 :: joinGroups groups := by
    unfold squeezeNumber squeeze
    rw [squeezeFrom_numChar_cons false _ h43n, hsq, collapsePairs_cons_of_not_space _ h43s, hcp]
    simp
  have hcond : (decide ((43 :: joinGroups groups).headD 0 = 43)
      && (43 :: joinGroups groups).take 3 != bytes "+1 ") = true := by
    simp only [List.headD_cons, decide_True, Bool.true_and, bne_iff_ne, ne_eq]
    exact hplus1
  have hrm43 : removeSpaces (43 :: joinGroups groups) = 43 :: groups.flatten := by
    rw [removeSpaces_cons, h43s, hrm]
    simp
  have hm : matchInternational (43 :: groups.flatten) = true := by
    simp only [matchInternational, hdig, Bool.true_and, Bool.and_eq_true, decide_eq_true_eq]
    exact ⟨h7, h15⟩
  have hc : hasCountryCode (43 :: groups.flatten) = true := by
    obtain ⟨code, hcode, hpre⟩ := hcc
    unfold hasCountryCode
    rw [List.any_eq_true]
    exact ⟨code, hcode, by simpa [List.isPrefixOf] using hpre⟩
  have h1 : (bytes "+001").isPrefixOf (43 :: groups.flatten) = false := by
    have hb : bytes "+001" = 43 :: bytes "001" := by decide
    rw [hb]
    simpa [List.isPrefixOf] using h001
  have hdot := contains_dot_plain _ (List.all_eq_true.mp hplain)
  have hpar := any_paren_plain _ (List.all_eq_true.mp hplain)
  unfold parseNumber
  simp only [hpop, hdot, hpar, smatchSize, hsqn]
  simp only [parseBranches, if_pos hcond, parseInternational, hrm43, hm, hc, h1]
  simp

/-- Witness for C12, at the input `+44 20 7946 0958` of the spec. -/
theorem validatePhoneNumber_international_groups_witness :
    validatePhoneNumber (bytes "+44 20 7946 0958") = .accepted (bytes "+442079460958") :=
  validatePhoneNumber_international_groups
    [bytes "44", bytes "20", bytes "7946", bytes "0958"]
    (by decide) (by decide) (by decide) (by decide) (by decide) (by decide)

/-! ## The code of an accepted result is a listed one -/

theorem hasAreaCode_take {num : List Nat} (h : hasAreaCode num = true) :
    num.take 3 ∈ areaCodes.map bytes := by
  unfold hasAreaCode at h
  obtain ⟨code, hcode, hpre⟩ := List.any_eq_true.mp h
  have hmem : bytes code ∈ areaCodes.map bytes := List.mem_map_of_mem bytes hcode
  obtain ⟨a1, a2, a3, habc, -⟩ := areaCode_cases hmem
  have htake := List.prefix_iff_eq_take.mp (List.isPrefixOf_iff_prefix.mp hpre)
  rw [habc] at htake
  simp only [List.length_cons, List.length_nil] at htake
  rw [← htake, ← habc]
  exact hmem

/-- Claim C13: in an accepted result that does not begin with `+` the first three characters
are a listed area code, and in one that begins with `+` the digits after it begin with a listed
country code; the input `123 456 7890` is rejected. -/
theorem validatePhoneNumber_code_listed (s c : List Nat)
    (h : validatePhoneNumber s = .accepted c) :
    (c.head? ≠ some 43 → c.take 3 ∈ areaCodes.map bytes)
      ∧ (c.head? = some 43 →
          ∃ code ∈ countryCodes, (bytes code).isPrefixOf (c.drop 1) = true)
      ∧ validatePhoneNumber (bytes "123 456 7890") = .rejected := by
  refine ⟨?_, ?_, by decide⟩
  · intro hn
    obtain ⟨num, e, rfl, -, hs⟩ := validatePhoneNumber_accepted h
    rcases hs with ⟨hm, ha⟩ | ⟨hm, -, -⟩
    · have ht := hasAreaCode_take ha
      obtain ⟨a1, a2, a3, e1, e2, e3, s1, s2, s3, s4, rest, rfl, -⟩ := matchNANP_cases hm
      simpa using ht
    · obtain ⟨ds, rfl, -⟩ := matchInternational_cases hm
      simp at hn
  · intro hp
    obtain ⟨num, e, rfl, -, hs⟩ := validatePhoneNumber_accepted h
    rcases hs with ⟨hm, -⟩ | ⟨hm, hc, -⟩
    · obtain ⟨a1, a2, a3, e1, e2, e3, s1, s2, s3, s4, rest, rfl, ha1, -⟩ := matchNANP_cases hm
      simp only [List.cons_append, List.head?_cons, Option.some.injEq] at hp
      omega
    · obtain ⟨ds, rfl, -⟩ := matchInternational_cases hm
      unfold hasCountryCode at hc
      obtain ⟨code, hcode, hpre⟩ := List.any_eq_true.mp hc
      refine ⟨code, hcode, ?_⟩
      have hpre' : (bytes code).isPrefixOf ds = true := by
        simpa [List.isPrefixOf] using hpre
      have h1 := List.isPrefixOf_iff_prefix.mp hpre'
      exact List.isPrefixOf_iff_prefix.mpr (h1.trans (List.prefix_append ds e))

/-- Witness for C13, at the inputs `(972) 964-4333` and `123 456 7890`. -/
theorem validatePhoneNumber_code_listed_witness :
    ((bytes "972 964 4333").head? ≠ some 43
        → (bytes "972 964 4333").take 3 ∈ areaCodes.map bytes)
      ∧ ((bytes "972 964 4333").head? = some 43 →
          ∃ code ∈ countryCodes,
            (bytes code).isPrefixOf ((bytes "972 964 4333").drop 1) = true)
      ∧ validatePhoneNumber (bytes "123 456 7890") = .rejected :=
  validatePhoneNumber_code_listed (bytes "(972) 964-4333") (bytes "972 964 4333") (by decide)

/-- Claim C14 at its inputs: with ten digits after `+001` the number is accepted in the North
American form and with nine it is rejected, but with four or five digits after `+001` the call
`insert(6, " ")` is out of range instead of the input being rejected. -/
theorem validatePhoneNumber_plus001 :
    validatePhoneNumber (bytes "+0019729644333 x5") = .accepted (bytes "972 964 4333x5")
      ∧ validatePhoneNumber (bytes "+001972964433") = .rejected
      ∧ validatePhoneNumber (bytes "+00197296443334") = .rejected
      ∧ validatePhoneNumber (bytes "+00197296") = .fault .insertOutOfRange
      ∧ validatePhoneNumber (bytes "+001 9729") = .fault .insertOutOfRange := by
  decide

/-! ## Blank names -/

theorem stripChecked_eq (s : List Nat) :
    stripChecked s = some (eraseTrailingSpace (eraseLeadingSpace s)) := by
  cases s with
  | nil => simp [stripChecked, charAt, eraseLeadingSpace, eraseTrailingSpace]
  | cons a r =>
    have h0 : charAt (a :: r) 0 = some a := by simp [charAt]
    have hlead : eraseLeadingSpace (a :: r) = if a = 32 then r else a :: r := by
      simp [eraseLeadingSpace]
    unfold stripChecked
    rw [h0, hlead]
    simp only [List.drop_succ_cons, List.drop_zero]
    generalize (if a = 32 then r else a :: r) = t
    by_cases ht : t = []
    · subst ht
      simp [eraseTrailingSpace]
    · have hlen : t.length ≠ 0 := by
        intro h
        exact ht (List.length_eq_zero.mp h)
      have hlast : charAt t (t.length - 1) = some (t.getLast ht) := by
        unfold charAt
        rw [if_pos (by omega), List.getLast_eq_getElem, List.get?_eq_getElem?]
        exact List.getElem?_eq_getElem (by omega)
      rw [if_pos hlen, hlast]
      unfold eraseTrailingSpace
      rw [List.getLast?_eq_getLast t ht]
      by_cases h32 : t.getLast ht = 32
      · simp [h32, hlen]
      · simp [h32]

theorem uniqueFrom_all_space (s : List Nat) (h : ∀ c ∈ s, c = 32) : uniqueFrom 32 s = [] := by
  induction s with
  | nil => rfl
  | cons c cs ih =>
    have hc : c = 32 := h c (List.mem_cons_self c cs)
    subst hc
    rw [uniqueFrom, if_pos ⟨rfl, rfl⟩]
    exact ih (fun d hd => h d (List.mem_cons_of_mem _ hd))

theorem foldSpaces_blank (v : List Nat) (h : ∀ c ∈ v, c = 32 ∨ spaceChars.contains c = true) :
    foldSpaces v = [] ∧ stripChecked (unique (replaceSpaceChars v)) = some [] := by
  have hall : ∀ c ∈ replaceSpaceChars v, c = 32 := by
    intro c hc
    obtain ⟨d, hd, rfl⟩ := List.mem_map.mp hc
    rcases h d hd with rfl | hs
    · decide
    · rw [if_pos hs]
  have hu : unique (replaceSpaceChars v) = [] ∨ unique (replaceSpaceChars v) = [32] := by
    cases hr : replaceSpaceChars v with
    | nil => left; rfl
    | cons c cs =>
      rw [hr] at hall
      have hc : c = 32 := hall c (List.mem_cons_self c cs)
      subst hc
      right
      rw [unique, uniqueFrom_all_space cs (fun d hd => hall d (List.mem_cons_of_mem _ hd))]
  have hfold : foldSpaces v = [] := by
    unfold foldSpaces
    rcases hu with hu | hu <;> rw [hu] <;> decide
  refine ⟨hfold, ?_⟩
  rw [stripChecked_eq]
  exact congrArg some hfold

/-- Claim C15: a raw name whose code points are all spaces or space-equivalents (the empty name
included) is normalized to the empty sequence, no read of the two strip steps is out of bounds,
and `validateName` rejects the result.  Form C is taken to map such text to such text. -/
theorem normalizeToUTF32_blank (from_bytes : List Nat → Option (List Nat))
    (nfc : List Nat → List Nat)
    (hnfc : ∀ v, (∀ c ∈ v, c = 32 ∨ spaceChars.contains c = true) →
      ∀ c ∈ nfc v, c = 32 ∨ spaceChars.contains c = true)
    (x utf32 : List Nat) (hx : from_bytes x = some utf32)
    (hblank : ∀ c ∈ utf32, c = 32 ∨ spaceChars.contains c = true) :
    normalizeToUTF32 from_bytes nfc x = some []
      ∧ stripChecked (unique (replaceSpaceChars (nfc utf32))) = some []
      ∧ validateName [] = false := by
  obtain ⟨h1, h2⟩ := foldSpaces_blank (nfc utf32) (hnfc utf32 hblank)
  refine ⟨?_, h2, rfl⟩
  unfold normalizeToUTF32
  rw [hx]
  exact congrArg some h1

/-- Witness for C15, at a name made of a space, a tab, a no-break space and an ideographic
space. -/
theorem normalizeToUTF32_blank_witness :
    normalizeToUTF32 some id [32, 9, 160, 12288] = some []
      ∧ stripChecked (unique (replaceSpaceChars (id [32, 9, 160, 12288]))) = some []
      ∧ validateName [] = false :=
  normalizeToUTF32_blank some id (fun _ h => h) [32, 9, 160, 12288] [32, 9, 160, 12288] rfl
    (by decide)

/-! ## Control characters in names -/

/-- Claim C20: a name that holds a C0 control character, DEL or a C1 control character anywhere
is rejected, and a non-empty name whose scalar values all lie in `0x20..0x7E` or `0xA1..0x205E`
is accepted, for example `J`, `o`, `s`, U+00E9. -/
theorem validateName_controls :
    (∀ name : List Nat, ∀ c ∈ name,
        (c < 0x20 ∨ c = 0x7F ∨ (0x80 ≤ c ∧ c ≤ 0x9F)) → validateName name = false)
      ∧ (∀ name : List Nat, name ≠ [] →
          (∀ c ∈ name, (0x20 ≤ c ∧ c ≤ 0x7E) ∨ (0xA1 ≤ c ∧ c ≤ 0x205E)) →
          validateName name = true)
      ∧ validateName [0x4A, 0x6F, 0x73, 0xE9] = true := by
  refine ⟨?_, ?_, by decide⟩
  · intro name c hc hctl
    cases name with
    | nil => simp at hc
    | cons a r =>
      simp only [validateName, List.isEmpty_cons, Bool.false_eq_true, if_false]
      rw [validateChars_eq_false_iff]
      exact ⟨c, hc, by omega⟩
  · intro name hne hall
    cases name with
    | nil => exact absurd rfl hne
    | cons a r =>
      simp only [validateName, List.isEmpty_cons, Bool.false_eq_true, if_false]
      by_contra hcon
      rw [Bool.not_eq_true, validateChars_eq_false_iff] at hcon
      obtain ⟨c, hc, hbad⟩ := hcon
      have := hall c hc
      omega

/-! ## The parenthesis check -/

theorem hasParenGroup_decompose {s : List Nat} (h : hasParenGroup s = true) :
    ∃ a d1 d2 d3 b, s = a ++ 40 :: d1 :: d2 :: d3 :: 41 :: b
      ∧ isDigit d1 = true ∧ isDigit d2 = true ∧ isDigit d3 = true := by
  induction s with
  | nil => simp [hasParenGroup] at h
  | cons c cs ih =>
    rw [hasParenGroup, Bool.or_eq_true] at h
    rcases h with h | h
    · split at h
      · rename_i d1 d2 d3 r heq
        simp only [Bool.and_eq_true] at h
        exact ⟨[], d1, d2, d3, r, by simpa using heq, h.1.1, h.1.2, h.2⟩
      · simp at h
    · obtain ⟨a, d1, d2, d3, b, rfl, hd⟩ := ih h
      exact ⟨c :: a, d1, d2, d3, b, rfl, hd⟩

theorem popTrailingSpace_cases {p p1 : List Nat} (h : popTrailingSpace p = some p1) :
    p1 = p ∨ p = p1 ++ [32] := by
  unfold popTrailingSpace at h
  cases hp : p.getLast? with
  | none => rw [hp] at h; simp at h
  | some last =>
    rw [hp] at h
    simp only [Option.some.injEq] at h
    by_cases hl : last = 32
    · rw [if_pos hl] at h
      right
      subst hl
      have hne : p ≠ [] := by
        rintro rfl
        simp at hp
      have hlast : p.getLast hne = 32 := by
        have := List.getLast?_eq_getLast p hne
        rw [hp] at this
        exact (Option.some.inj this).symm
      rw [← h]
      have := List.dropLast_append_getLast hne
      rw [hlast] at this
      exact this.symm
    · rw [if_neg hl] at h
      exact Or.inl h.symm

/-- Claim C19: when the text left after the extension split holds a `(` or a `)` but nowhere an
opening parenthesis, three digits and a closing parenthesis in a row, the input is rejected. -/
theorem validatePhoneNumber_paren_check (s p e : List Nat)
    (hx : extractExtention s = some (p, e))
    (hp : ∃ c ∈ p, c = 40 ∨ c = 41)
    (hg : ¬ ∃ a d1 d2 d3 b, p = a ++ 40 :: d1 :: d2 :: d3 :: 41 :: b
      ∧ isDigit d1 = true ∧ isDigit d2 = true ∧ isDigit d3 = true) :
    validatePhoneNumber s = .rejected := by
  unfold validatePhoneNumber
  split_ifs with hsan
  · rfl
  · rw [hx]
    obtain ⟨c, hc, hc40⟩ := hp
    have hne : p ≠ [] := by
      rintro rfl
      simp at hc
    have hpop : ∃ p1, popTrailingSpace p = some p1 := by
      unfold popTrailingSpace
      rw [List.getLast?_eq_getLast p hne]
      exact ⟨_, rfl⟩
    obtain ⟨p1, hp1⟩ := hpop
    have hany : p1.any isParen = true := by
      rw [List.any_eq_true]
      refine ⟨c, ?_, by rcases hc40 with rfl | rfl <;> decide⟩
      rcases popTrailingSpace_cases hp1 with rfl | hpp
      · exact hc
      · rw [hpp] at hc
        rcases List.mem_append.mp hc with hc | hc
        · exact hc
        · simp only [List.mem_singleton] at hc
          omega
    have hgroup : hasParenGroup p1 = false := by
      by_contra hcon
      rw [Bool.not_eq_false] at hcon
      obtain ⟨a, d1, d2, d3, b, hab, hd⟩ := hasParenGroup_decompose hcon
      apply hg
      rcases popTrailingSpace_cases hp1 with rfl | hpp
      · exact ⟨a, d1, d2, d3, b, hab, hd⟩
      · refine ⟨a, d1, d2, d3, b ++ [32], ?_, hd⟩
        rw [hpp, hab]
        simp
    show parseNumber p e = .rejected
    unfold parseNumber
    simp only [hp1, smatchSize_zero_not_gt, if_false, hany, hgroup, smatchSize]
    simp

/-- Witness for C19, at the input `(97) 964-4333`, whose parentheses hold two digits only. -/
theorem validatePhoneNumber_paren_check_witness :
    validatePhoneNumber (bytes "(97) 964-4333") = .rejected :=
  validatePhoneNumber_paren_check (bytes "(97) 964-4333") (bytes "(97) 964-4333") []
    (by decide) ⟨40, by decide, Or.inl rfl⟩ (by
      rintro ⟨a, d1, d2, d3, b, hab, -⟩
      have h5 : (bytes "(97) 964-4333") = [40, 57, 55, 41, 32, 57, 54, 52, 45, 52, 51, 51, 51] := by
        decide
      rw [h5] at hab
      match a, hab with
      | [], hab =>
        simp only [List.nil_append, List.cons.injEq] at hab
        omega
      | x :: a', hab =>
        simp only [List.cons_append, List.cons.injEq] at hab
        have h2 : ([57, 55, 41, 32, 57, 54, 52, 45, 52, 51, 51, 51] : List Nat).count 40
            = (a' ++ 40 :: d1 :: d2 :: d3 :: 41 :: b).count 40 := by rw [hab.2]
        simp [List.count_append, List.count_cons] at h2
        omega)

/-! ## The directory -/

/-- Claim C16: inserting a record that is already present leaves the directory unchanged,
inserting a new record appends it at the end, and after inserting the same record twice into
a directory that held it at most once the directory holds it exactly once. -/
theorem insertIfAbsent_spec (Users : List User) (r : User) :
    (r ∈ Users → insertIfAbsent Users r = Users)
      ∧ (r ∉ Users → insertIfAbsent Users r = Users ++ [r])
      ∧ (Users.count r ≤ 1 →
          (insertIfAbsent (insertIfAbsent Users r) r).count r = 1) := by
  refine ⟨?_, ?_, ?_⟩
  · intro h
    simp [insertIfAbsent, h]
  · intro h
    simp [insertIfAbsent, h]
  · intro hc
    by_cases h : r ∈ Users
    · have h1 : insertIfAbsent Users r = Users := by simp [insertIfAbsent, h]
      rw [h1, h1]
      have := List.count_pos_iff.mpr h
      omega
    · have h1 : insertIfAbsent Users r = Users ++ [r] := by simp [insertIfAbsent, h]
      have h2 : insertIfAbsent (Users ++ [r]) r = Users ++ [r] := by simp [insertIfAbsent]
      rw [h1, h2, List.count_append, List.count_eq_zero_of_not_mem h]
      simp

theorem insertIfAbsent_nodup {Users : List User} (h : Users.Nodup) (r : User) :
    (insertIfAbsent Users r).Nodup := by
  unfold insertIfAbsent
  split_ifs with hr
  · exact h
  · refine List.Nodup.append h (List.nodup_singleton r) ?_
    intro a ha ha'
    rw [List.mem_singleton] at ha'
    exact hr (ha' ▸ ha)

theorem eraseSelected_sublist (Users : List User) (found : List Nat) (typed : Int) :
    (eraseSelected Users found typed).Sublist Users := by
  unfold eraseSelected
  simp only
  split_ifs
  · exact List.Sublist.refl _
  · exact List.eraseIdx_sublist _ _
  · exact List.Sublist.refl _
  · exact List.eraseIdx_sublist _ _

theorem applyCommand_nodup {Users : List User} (h : Users.Nodup) (command : Command) :
    (applyCommand Users command).Nodup := by
  cases command with
  | insert user => exact insertIfAbsent_nodup h user
  | delName name typed => exact List.Nodup.sublist (eraseSelected_sublist _ _ _) h
  | delPhone phoneNumber typed => exact List.Nodup.sublist (eraseSelected_sublist _ _ _) h

theorem foldl_applyCommand_nodup (commands : List Command) (Users : List User)
    (h : Users.Nodup) : (commands.foldl applyCommand Users).Nodup := by
  induction commands generalizing Users with
  | nil => exact h
  | cons c cs ih => exact ih _ (applyCommand_nodup h c)

/-- Claim C17: starting from the empty directory, after any sequence of insertions and
deletions no two records at different positions are equal. -/
theorem runCommands_nodup (commands : List Command) :
    (runCommands commands).Nodup ∧
      ∀ i j, i < j → j < (runCommands commands).length →
        (runCommands commands).get? i ≠ (runCommands commands).get? j := by
  have hn : (runCommands commands).Nodup :=
    foldl_applyCommand_nodup commands [] List.nodup_nil
  refine ⟨hn, ?_⟩
  intro i j hij hj heq
  have hi : i < (runCommands commands).length := by omega
  rw [List.get?_eq_getElem?, List.get?_eq_getElem?, List.getElem?_eq_getElem hi,
    List.getElem?_eq_getElem hj, Option.some.injEq] at heq
  have := (List.Nodup.getElem_inj_iff hn).mp heq
  omega

theorem findMatchesFrom_spec (pred : User → Bool) (pos : Nat) (Users : List User) :
    (findMatchesFrom pred pos Users).Pairwise (· < ·)
      ∧ ∀ i, i ∈ findMatchesFrom pred pos Users ↔
          pos ≤ i ∧ ∃ u, Users.get? (i - pos) = some u ∧ pred u = true := by
  induction Users generalizing pos with
  | nil => simp [findMatchesFrom]
  | cons user rest ih =>
    obtain ⟨ihp, ihm⟩ := ih (pos + 1)
    have hmem : ∀ i, (pos + 1 ≤ i ∧ ∃ u, rest.get? (i - (pos + 1)) = some u ∧ pred u = true)
        ↔ (pos < i ∧ ∃ u, (user :: rest).get? (i - pos) = some u ∧ pred u = true) := by
      intro i
      constructor
      · rintro ⟨hle, u, hu, hp⟩
        refine ⟨hle, u, ?_, hp⟩
        have : i - pos = (i - (pos + 1)) + 1 := by omega
        rw [this, List.get?_cons_succ]
        exact hu
      · rintro ⟨hlt, u, hu, hp⟩
        refine ⟨hlt, u, ?_, hp⟩
        have : i - pos = (i - (pos + 1)) + 1 := by omega
        rw [this, List.get?_cons_succ] at hu
        exact hu
    by_cases hp : pred user = true
    · rw [findMatchesFrom, if_pos hp]
      refine ⟨List.pairwise_cons.mpr ⟨?_, ihp⟩, ?_⟩
      · intro j hj
        have := (ihm j).mp hj
        omega
      · intro i
        rw [List.mem_cons, ihm, hmem]
        constructor
        · rintro (rfl | ⟨hlt, h⟩)
          · exact ⟨Nat.le_refl _, user, by simp, hp⟩
          · exact ⟨Nat.le_of_lt hlt, h⟩
        · rintro ⟨hle, h⟩
          by_cases hi : i = pos
          · exact Or.inl hi
          · exact Or.inr ⟨by omega, h⟩
    · rw [findMatchesFrom, if_neg hp]
      refine ⟨ihp, ?_⟩
      intro i
      rw [ihm, hmem]
      constructor
      · rintro ⟨hlt, h⟩
        exact ⟨Nat.le_of_lt hlt, h⟩
      · rintro ⟨hle, u, hu, hpu⟩
        by_cases hi : i = pos
        · subst hi
          simp only [Nat.sub_self, List.get?_cons_zero, Option.some.injEq] at hu
          subst hu
          exact absurd hpu hp
        · exact ⟨by omega, u, hu, hpu⟩

theorem narrowToInt_range (value : Int) :
    -2147483648 ≤ narrowToInt value ∧ narrowToInt value ≤ 2147483647 := by
  unfold narrowToInt
  omega

theorem narrowToInt_of_int {value : Int}
    (h : -2147483648 ≤ value ∧ value ≤ 2147483647) : narrowToInt value = value := by
  unfold narrowToInt
  omega

/-- What `del` does with the number typed, once narrowed to `int`: the match list holds exactly
the positions of the records whose queried field equals the query, each once and in the order
of the directory.  Deleting the only match, or the match whose number is the narrowed value
when that lies between 1 and the number of matches, removes the record at that position and
keeps all others in order; without a match, and when the narrowed value is outside that range,
the directory is unchanged. -/
theorem delBy_spec (field : User → List Nat) (Users : List User) (query : List Nat)
    (typed : Int) (found : List Nat)
    (hfound : found = findMatches (fun user => field user == query) Users) :
    found.Pairwise (· < ·)
      ∧ (∀ i, i ∈ found ↔ ∃ u, Users.get? i = some u ∧ field u = query)
      ∧ (found = [] → delBy field Users query typed = Users)
      ∧ (∀ i, found = [i] →
          delBy field Users query typed = Users.take i ++ Users.drop (i + 1))
      ∧ (2 ≤ found.length → 1 ≤ narrowToInt typed → narrowToInt typed ≤ found.length →
          ∃ i, found.get? (narrowToInt typed - 1).toNat = some i
            ∧ delBy field Users query typed = Users.take i ++ Users.drop (i + 1))
      ∧ (2 ≤ found.length →
          (narrowToInt typed < 1 ∨ (found.length : Int) < narrowToInt typed) →
          delBy field Users query typed = Users) := by
  obtain ⟨hpair, hmem⟩ := findMatchesFrom_spec (fun user => field user == query) 0 Users
  have hint := narrowToInt_range typed
  have hdel : delBy field Users query typed = eraseSelected Users found typed := by
    rw [hfound]
    rfl
  rw [hdel]
  refine ⟨?_, ?_, ?_, ?_, ?_, ?_⟩
  · rw [hfound]
    exact hpair
  · intro i
    rw [hfound]
    unfold findMatches
    rw [hmem]
    simp
  · intro h
    simp [eraseSelected, h]
  · intro i h
    simp [eraseSelected, h, List.eraseIdx_eq_take_drop_succ]
  · intro h2 h1 hle
    have hlt : (narrowToInt typed - 1).toNat < found.length := by omega
    refine ⟨found[(narrowToInt typed - 1).toNat], ?_, ?_⟩
    · rw [List.get?_eq_getElem?]
      exact List.getElem?_eq_getElem hlt
    · have hne : found.isEmpty = false := by
        cases found with
        | nil => simp at h2
        | cons a r => rfl
      have hmod : (narrowToInt typed % 18446744073709551616).toNat
          = (narrowToInt typed).toNat := by
        rw [Int.emod_eq_of_lt (by omega) (by omega)]
      have hcond : ¬ ((narrowToInt typed % 18446744073709551616).toNat > found.length
          ∨ narrowToInt typed < 1) := by
        rw [hmod]
        omega
      unfold eraseSelected
      simp only
      rw [hne, if_neg (by simp), if_neg (by omega), if_neg hcond,
        List.getD_eq_getElem _ _ hlt, List.eraseIdx_eq_take_drop_succ]
  · intro h2 hbad
    have hne : found.isEmpty = false := by
      cases found with
      | nil => simp at h2
      | cons a r => rfl
    have hcond : (narrowToInt typed % 18446744073709551616).toNat > found.length
        ∨ narrowToInt typed < 1 := by
      rcases hbad with h | h
      · exact Or.inr h
      · left
        rw [Int.emod_eq_of_lt (by omega) (by omega)]
        omega
    unfold eraseSelected
    simp only
    rw [hne, if_neg (by simp), if_neg (by omega), if_pos hcond]

/-- Example of `delBy_spec`: in the sample directory the name Ann matches the positions 0 and 2,
and the number 2 deletes the record at position 2. -/
theorem delBy_spec_example :
    ∃ i, ([0, 2] : List Nat).get? (narrowToInt 2 - 1).toNat = some i
      ∧ delBy User.name sampleUsers (bytes "Ann") 2
        = sampleUsers.take i ++ sampleUsers.drop (i + 1) :=
  (delBy_spec User.name sampleUsers (bytes "Ann") 2 [0, 2] (by decide)).2.2.2.2.1
    (by decide) (by decide) (by decide)

/-- Claim C18 at its failing input: in the sample directory two users are named Ann, and the
number 4294967297, which is no valid selection, is narrowed to the `int` 1, so the first match
is erased instead of the directory being left unchanged. -/
theorem delByName_wrapped_selection :
    findMatches (fun user => user.name == bytes "Ann") sampleUsers = [0, 2]
      ∧ narrowToInt 4294967297 = 1
      ∧ delByName sampleUsers (bytes "Ann") 4294967297 = sampleUsers.drop 1
      ∧ delByName sampleUsers (bytes "Ann") 4294967297 ≠ sampleUsers := by
  decide

/-! ## The country code 1 written without a space -/

/-- Claim C21: `+1` directly followed by 6 to 14 digits takes the international branch and is
accepted unchanged, with neither the North American pattern nor the area-code list applied.
So `+11234567890` is accepted while `+1 123 456 7890` is rejected, and the number 972 964 4333
written with and without the space after `+1` gets two different results. -/
theorem validatePhoneNumber_plus1_unspaced (ds : List Nat) (hd : ds.all isDigit = true)
    (h6 : 6 ≤ ds.length) (h14 : ds.length ≤ 14) :
    validatePhoneNumber (43 :: 49 :: ds) = .accepted (43 :: 49 :: ds)
      ∧ parseBranches (43 :: 49 :: ds) [] = parseInternational (43 :: 49 :: ds) []
      ∧ validatePhoneNumber (bytes "+11234567890") = .accepted (bytes "+11234567890")
      ∧ validatePhoneNumber (bytes "+1 123 456 7890") = .rejected
      ∧ validatePhoneNumber (bytes "+1 972 964 4333") = .accepted (bytes "972 964 4333")
      ∧ validatePhoneNumber (bytes "+19729644333") = .accepted (bytes "+19729644333") := by
  have h49 : isDigit 49 = true := by decide
  have hall : (49 :: ds).all isDigit = true := by
    simp only [List.all_cons, h49, hd, Bool.and_self]
  have hm : matchInternational (43 :: 49 :: ds) = true := by
    simp only [matchInternational, hall, Bool.true_and, Bool.and_eq_true, decide_eq_true_eq,
      List.length_cons]
    omega
  have hc : hasCountryCode (43 :: 49 :: ds) = true := by
    unfold hasCountryCode
    rw [List.any_eq_true]
    refine ⟨"1", by decide, ?_⟩
    have hb : bytes "1" = [49] := by decide
    rw [hb]
    simp [List.isPrefixOf]
  have h001 : (bytes "+001").isPrefixOf (43 :: 49 :: ds) = false := by
    have hb : bytes "+001" = [43, 48, 48, 49] := by decide
    rw [hb]
    simp [List.isPrefixOf]
  have hcond : (decide ((43 :: 49 :: ds).headD 0 = 43)
      && (43 :: 49 :: ds).take 3 != bytes "+1 ") = true := by
    have hb : bytes "+1 " = [43, 49, 32] := by decide
    rw [hb]
    match ds, h6, hd with
    | d :: r, _, hd =>
      simp only [List.all_cons, Bool.and_eq_true] at hd
      have := (isDigit_facts hd.1).2.2.2.1
      simp [this]
  refine ⟨?_, ?_, by decide, by decide, by decide, by decide⟩
  · have hval := validatePhoneNumber_canonical (43 :: 49 :: ds) []
      (matchInternational_plain hm) (Or.inl rfl)
    rw [List.append_nil] at hval
    rw [hval]
    have := parseNumber_international (43 :: 49 :: ds) [] hm hc h001
    rw [List.append_nil] at this
    exact this
  · unfold parseBranches
    rw [if_pos hcond]

/-- Witness for C21, at the input `+11234567890`. -/
theorem validatePhoneNumber_plus1_unspaced_witness :
    validatePhoneNumber (bytes "+11234567890") = .accepted (bytes "+11234567890")
      ∧ parseBranches (bytes "+11234567890") [] = parseInternational (bytes "+11234567890") []
      ∧ validatePhoneNumber (bytes "+11234567890") = .accepted (bytes "+11234567890")
      ∧ validatePhoneNumber (bytes "+1 123 456 7890") = .rejected
      ∧ validatePhoneNumber (bytes "+1 972 964 4333") = .accepted (bytes "972 964 4333")
      ∧ validatePhoneNumber (bytes "+19729644333") = .accepted (bytes "+19729644333") :=
  validatePhoneNumber_plus1_unspaced (bytes "1234567890") (by decide) (by decide) (by decide)

end Database
